import Mathlib

/-!
Verification development for the reconciliation core of the quilt
orchestrator (src/minion/engine.go).

The engine file is embedded directly.  Its collaborators (the db view, the
stitch compiler output, the join primitives and the util helpers) are not
part of the sources, so they are modelled from the specification; every
such definition carries a doc comment starting with the words
Modelled from the spec.
-/

namespace Quilt

/-! ## Data model -/

/-- Role of the caller: enumeration Master / Worker (db.Role). -/
inductive Role where
  | Master
  | Worker
deriving DecidableEq, Repr

/-- Connection value: an allowed traffic flow (From, To, MinPort, MaxPort).
Go ints are modelled as unbounded Int. -/
structure Connection where
  From : String
  To : String
  MinPort : Int
  MaxPort : Int
deriving DecidableEq, Repr

/-- Placement rule: closed sum of the three variants used by the engine
(db.LabelRule, db.MachineRule, db.PortRule). -/
inductive PlacementRule where
  | labelRule (OtherLabel : String) (Exclusive : Bool)
  | machineRule (Exclusive : Bool) (Attribute : String) (Value : String)
  | portRule (Port : Int)
deriving DecidableEq, Repr

/-- Placement value: (TargetLabel, Rule); its identity is the whole value. -/
structure Placement where
  TargetLabel : String
  Rule : PlacementRule
deriving DecidableEq, Repr

/-- Container value: Command, Image, Env (a string-to-string mapping,
modelled as an association list) and Labels. -/
structure Container where
  Command : List String
  Image : String
  Env : List (String × String)
  Labels : List String
deriving DecidableEq, Repr

/-- Modelled from the spec: a view row handle for a connection.  The db
collaborator is absent from the sources; per the spec, insert returns a
fresh row handle (the ID), commit makes field values durable, remove
deletes by value identity. -/
structure ConnectionRow where
  ID : Nat
  From : String
  To : String
  MinPort : Int
  MaxPort : Int
deriving DecidableEq, Repr

/-- Modelled from the spec: a view row handle for a placement. -/
structure PlacementRow where
  ID : Nat
  TargetLabel : String
  Rule : PlacementRule
deriving DecidableEq, Repr

/-- Modelled from the spec: a view row handle for a container. -/
structure ContainerRow where
  ID : Nat
  Command : List String
  Image : String
  Env : List (String × String)
  Labels : List String
deriving DecidableEq, Repr

/-- Field values of a connection row (the reconciliation key used by
updateConnections, which drops the handle ID). -/
def connFields (r : ConnectionRow) : Connection :=
  ⟨r.From, r.To, r.MinPort, r.MaxPort⟩

/-- Field values of a placement row: the (TargetLabel, Rule) pair, the key
used by updatePlacements. -/
def placementFields (r : PlacementRow) : Placement :=
  ⟨r.TargetLabel, r.Rule⟩

/-- Field values of a container row. -/
def containerFields (r : ContainerRow) : Container :=
  ⟨r.Command, r.Image, r.Env, r.Labels⟩

/-- Modelled from the spec: the view state, one table per entity kind plus
the fresh-ID source for row handles. -/
structure Database where
  nextID : Nat
  connections : List ConnectionRow
  placements : List PlacementRow
  containers : List ContainerRow
deriving DecidableEq, Repr

/-- Entity kind of a view table. -/
inductive EntityKind where
  | conn
  | placement
  | container
deriving DecidableEq, Repr

/-- Kind of a mutation issued against the view. -/
inductive OpKind where
  | insert
  | commit
  | remove
deriving DecidableEq, Repr

/-- One mutation call issued against the view (the externally observable
behavior of the core). -/
structure Op where
  table : EntityKind
  kind : OpKind
deriving DecidableEq, Repr

/-! ## Compiled specification (stitch), modelled from the spec -/

/-- Modelled from the spec: one placement directive of the compiled
specification (stitch.Placement): a target label and a rule carrying an
exclusivity flag, co-location peers and machine attributes.  The Go
MachineAttributes map is modelled as an association list. -/
structure StitchPlacement where
  TargetLabel : String
  Exclusive : Bool
  OtherLabels : List String
  MachineAttributes : List (String × String)
deriving DecidableEq, Repr

/-- Modelled from the spec: one container declaration of the compiled
specification, carrying the internal ID that is later discarded. -/
structure StitchContainer where
  ID : Nat
  Command : List String
  Image : String
  Env : List (String × String)
deriving DecidableEq, Repr

/-- Modelled from the spec: the compiled specification model, exposing
the query results used by the engine (QueryConnections, QueryPlacements,
QueryContainers, QueryLabels). -/
structure Stitch where
  connections : List Connection
  placements : List StitchPlacement
  containers : List StitchContainer
  labels : List (String × List Nat)
deriving DecidableEq, Repr

/-- Modelled from the spec: the distinguished endpoint label denoting
public internet (stitch.PublicInternetLabel).  The exact literal is
immaterial to the engine. -/
def PublicInternetLabel : String := "public"

/-! ## View primitives -/

/-- Commit of a row handle: replace the table row carrying the handle ID
with the supplied field values. -/
def commitById {ρ : Type} (gid : ρ → Nat) (tbl : List ρ) (r : ρ) : List ρ :=
  tbl.map (fun x => if gid x = gid r then r else x)

/-- Remove each listed row from the table by value identity (first equal
occurrence). -/
def eraseEach {ρ : Type} [DecidableEq ρ] (tbl : List ρ) (rs : List ρ) : List ρ :=
  rs.foldl (fun t x => t.erase x) tbl

/-! ## Generic matching primitives (the join package), modelled from the spec -/

/-- Remove the first element satisfying the predicate, returning it and
the remainder. -/
def extractFirst {β : Type} (p : β → Bool) : List β → Option (β × List β)
  | [] => none
  | b :: r =>
    if p b then some (b, r)
    else (extractFirst p r).map (fun x => (x.1, b :: x.2))

/-- Modelled from the spec: join.HashJoin, the deterministic equi-join.
Every left element whose key equals some right element key is paired with
exactly one such right element (the first remaining one); each element
participates in at most one pair; the remaining elements are returned
unmatched. -/
def hashJoin {α β κ : Type} [DecidableEq κ] (kl : α → κ) (kr : β → κ) :
    List α → List β → List (α × β) × List α × List β
  | [], r => ([], [], r)
  | a :: l, r =>
    match extractFirst (fun b => kr b = kl a) r with
    | some (b, r₁) =>
      let res := hashJoin kl kr l r₁
      ((a, b) :: res.1, res.2.1, res.2.2)
    | none =>
      let res := hashJoin kl kr l r
      (res.1, a :: res.2.1, res.2.2)

/-- Candidate result of a scored matching: pairs, unmatched lefts,
unmatched rights. -/
def Matching (α β : Type) : Type := List (α × β) × List α × List β

/-- Each element of the list together with the list with that occurrence
removed. -/
def removeOptions {β : Type} : List β → List (β × List β)
  | [] => []
  | b :: r => (b, r) :: (removeOptions r).map (fun x => (x.1, b :: x.2))

/-- Modelled from the spec: all candidate matchings over the
compatible-pairs subgraph, enumerated in stable input order (each left
element in turn is either paired with a remaining compatible right
element or left unmatched). -/
def matchings {α β : Type} (score : α → β → Int) :
    List α → List β → List (Matching α β)
  | [], r => [([], [], r)]
  | a :: l, r =>
    ((removeOptions r).filter (fun br => 0 ≤ score a br.1)).flatMap
      (fun br => (matchings score l br.2).map
        (fun res => ((a, br.1) :: res.1, res.2.1, res.2.2)))
    ++ (matchings score l r).map (fun res => (res.1, a :: res.2.1, res.2.2))

/-- Total cost of the pairs of a candidate matching. -/
def matchCost {α β : Type} (score : α → β → Int) (m : Matching α β) : Int :=
  (m.1.map (fun p => score p.1 p.2)).sum

/-- Strict preference between candidate matchings: more pairs first, then
lower total cost. -/
def betterMatch {α β : Type} (score : α → β → Int) (x y : Matching α β) : Bool :=
  y.1.length < x.1.length
  || (x.1.length == y.1.length && matchCost score x < matchCost score y)

/-- Modelled from the spec: join.Join / ScoredMatch.  Selects a pairing
over the compatible-pairs subgraph that maximizes the number of matched
pairs and, subject to that, minimizes total summed cost; ties are broken
deterministically by stable enumeration order (the spec leaves the
tie-breaking rule to the implementer). -/
def scoredMatch {α β : Type} (score : α → β → Int) (l : List α) (r : List β) :
    Matching α β :=
  (matchings score l r).foldl
    (fun best c => if betterMatch score c best then c else best) ([], l, r)

/-! ## util helpers, modelled from the spec -/

/-- Modelled from the spec: util.StrSliceEqual, element-wise equality of
string sequences. -/
def StrSliceEqual (l r : List String) : Bool := l == r

/-- Modelled from the spec: util.StrStrMapEqual, equality of string-keyed
mappings: same keys and same values. -/
def StrStrMapEqual (m₁ m₂ : List (String × String)) : Bool :=
  decide (∀ k ∈ m₁.map Prod.fst ++ m₂.map Prod.fst, m₁.lookup k = m₂.lookup k)

/-- Inner recursion of lev on the second sequence; levxs is lev applied
to the tail of the first sequence. -/
def levAux (levxs : List String → Nat) (x : String) (xs : List String) :
    List String → Nat
  | [] => xs.length + 1
  | y :: ys =>
    if x = y then levxs ys
    else 1 + min (levxs (y :: ys)) (min (levAux levxs x xs ys) (levxs ys))

/-- Modelled from the spec: util.EditDistance, the sequence edit distance
with unit-cost insertions, deletions and substitutions, labels treated as
atomic tokens. -/
def lev : List String → List String → Nat
  | [], ys => ys.length
  | x :: xs, ys => levAux (lev xs) x xs ys

/-! ## The engine (src/minion/engine.go) -/

/-- Placement set derivation from the placement directives of the
specification (engine.go, toDBPlacements): one LabelRule per co-location
peer and one MachineRule per machine attribute with a non-empty value,
deduplicated through a set.  The Go map iteration order is modelled as
insertion order; claim C10 treats its permutations. -/
def insertPlacementSet (s : List Placement) (p : Placement) : List Placement :=
  if p ∈ s then s else s ++ [p]

/-- Engine toDBPlacements (engine.go lines 39-74). -/
def toDBPlacements (sps : List StitchPlacement) : List Placement :=
  sps.foldl
    (fun s sp =>
      let s₁ := sp.OtherLabels.foldl
        (fun s lab =>
          insertPlacementSet s ⟨sp.TargetLabel, .labelRule lab sp.Exclusive⟩) s
      sp.MachineAttributes.foldl
        (fun s av =>
          if av.2 = "" then s
          else insertPlacementSet s
            ⟨sp.TargetLabel, .machineRule sp.Exclusive av.1 av.2⟩) s₁)
    []

/-- Ports of the Go loop for p := MinPort; p <= MaxPort; p++ . -/
def portList (lo hi : Int) : List Int :=
  (List.range (hi + 1 - lo).toNat).map (fun i : Nat => lo + (i : Int))

/-- Engine makeConnectionPlacements (engine.go lines 76-92): one PortRule
per port of every connection originating at the public internet label. -/
def makeConnectionPlacements (conns : List ConnectionRow) : List Placement :=
  conns.flatMap
    (fun c =>
      if c.From = PublicInternetLabel then
        (portList c.MinPort c.MaxPort).map (fun p => ⟨c.To, .portRule p⟩)
      else [])

/-- Fresh row handles for a list of unmatched desired values, paired in
order; the blank row carries only the freshly allocated handle ID. -/
def allocRows {π ρ : Type} (blank : Nat → ρ) : Nat → List π → List (π × ρ)
  | _, [] => []
  | i, c :: cs => (c, blank i) :: allocRows blank (i + 1) cs

/-- Blank connection row returned by insert (engine.go line 143). -/
def blankConnRow (i : Nat) : ConnectionRow := ⟨i, "", "", 0, 0⟩

/-- Committed row of a matched connection pair: the handle ID with every
field overwritten from the desired connection (engine.go lines 146-155). -/
def mkConnRow (id : Nat) (c : Connection) : ConnectionRow :=
  ⟨id, c.From, c.To, c.MinPort, c.MaxPort⟩

/-- Engine updateConnections (engine.go lines 122-156): equality join of
the desired connection list against the view rows keyed by the full
4-tuple; view-only rows are removed, desired-only rows get fresh handles,
and every pair is committed with the desired field values. -/
def updateConnections (view : Database) (spec : Stitch) : Database × List Op :=
  let res := hashJoin (fun c => c) connFields spec.connections view.connections
  let tbl₁ := eraseEach view.connections res.2.2
  let newPairs := allocRows blankConnRow view.nextID res.2.1
  let tbl₂ := tbl₁ ++ newPairs.map Prod.snd
  let committed := res.1 ++ newPairs
  let tbl₃ := committed.foldl
    (fun t pr => commitById (fun r => r.ID) t (mkConnRow pr.2.ID pr.1)) tbl₂
  ({ view with
      nextID := view.nextID + res.2.1.length
      connections := tbl₃ },
   res.2.2.map (fun _ => ⟨.conn, .remove⟩)
     ++ res.2.1.map (fun _ => ⟨.conn, .insert⟩)
     ++ committed.map (fun _ => ⟨.conn, .commit⟩))

/-- Insert-and-commit loop of updatePlacements (engine.go lines 108-115):
for each desired placement to add, a fresh handle is inserted and
immediately committed with the desired (TargetLabel, Rule). -/
def insertCommitPlacements : Nat → List Placement → List PlacementRow →
    List PlacementRow × Nat
  | i, [], tbl => (tbl, i)
  | i, p :: ps, tbl =>
    let blank : PlacementRow := ⟨i, "", .portRule 0⟩
    let filled : PlacementRow := ⟨i, p.TargetLabel, p.Rule⟩
    insertCommitPlacements (i + 1) ps
      (commitById (fun r => r.ID) (tbl ++ [blank]) filled)

/-- Engine updatePlacements (engine.go lines 94-120): desired placements
are the spec-derived set appended with the connection-derived ones, joined
against the view rows keyed by (TargetLabel, Rule); unmatched desired ones
are inserted and committed, unmatched view rows are removed. -/
def updatePlacementsWith (dl : List Placement) (view : Database) :
    Database × List Op :=
  let desired := dl ++ makeConnectionPlacements view.connections
  let res := hashJoin (fun p => p) placementFields desired view.placements
  let ins := insertCommitPlacements view.nextID res.2.1 view.placements
  let tbl₂ := eraseEach ins.1 res.2.2
  ({ view with
      nextID := ins.2
      placements := tbl₂ },
   res.2.1.flatMap (fun _ => [⟨.placement, .insert⟩, ⟨.placement, .commit⟩])
     ++ res.2.2.map (fun _ => ⟨.placement, .remove⟩))

/-- Engine updatePlacements, with the spec-derived placement set computed
by toDBPlacements (whose Go map iteration order claim C10 quantifies
over). -/
def updatePlacements (view : Database) (spec : Stitch) : Database × List Op :=
  updatePlacementsWith (toDBPlacements spec.placements) view

/-- Engine queryContainers (engine.go lines 158-180): container
declarations are grouped by internal ID (later declarations overwrite
earlier ones of the same ID, as for a Go map), each is merged with every
label the specification associates with its ID, then the ID is discarded.
An ID mentioned by a label but never declared panics in Go and is skipped
here (the spec calls it a fatal invariant violation).  The Go map
iteration orders are modelled as insertion order. -/
def insertContainerDecl (acc : List (Nat × Container)) (c : StitchContainer) :
    List (Nat × Container) :=
  if acc.any (fun kv => kv.1 == c.ID) then
    acc.map (fun kv =>
      if kv.1 = c.ID then (kv.1, ⟨c.Command, c.Image, c.Env, []⟩) else kv)
  else acc ++ [(c.ID, ⟨c.Command, c.Image, c.Env, []⟩)]

/-- Append one label to the container entry carrying the given ID. -/
def addLabelToId (acc : List (Nat × Container)) (lab : String) (id : Nat) :
    List (Nat × Container) :=
  acc.map (fun kv =>
    if kv.1 = id then (kv.1, { kv.2 with Labels := kv.2.Labels ++ [lab] }) else kv)

/-- Engine queryContainers: the desired container collection. -/
def queryContainers (spec : Stitch) : List Container :=
  let m₀ := spec.containers.foldl insertContainerDecl []
  let m₁ := spec.labels.foldl
    (fun acc li => li.2.foldl (fun a id => addLabelToId a li.1 id) acc) m₀
  m₁.map Prod.snd

/-- Engine score function (engine.go lines 183-194): -1 marks an
incompatible pair (different Image, Command or Env); compatible pairs cost
the label edit distance. -/
def score (l : Container) (r : ContainerRow) : Int :=
  if l.Image ≠ r.Image
      || !(StrSliceEqual l.Command r.Command)
      || !(StrStrMapEqual l.Env r.Env) then
    -1
  else
    (lev l.Labels r.Labels : Int)

/-- Lexicographic comparison of strings as character-code sequences (the
byte order Go's sort.StringSlice uses). -/
def charListLe : List Char → List Char → Bool
  | [], _ => true
  | _ :: _, [] => false
  | c :: cs, d :: ds =>
    if c.toNat < d.toNat then true
    else if d.toNat < c.toNat then false
    else charListLe cs ds

/-- Lexicographic string order. -/
def strLe (a b : String) : Bool := charListLe a.toList b.toList

/-- Insertion of a string into a sorted list. -/
def insertSorted (s : String) : List String → List String
  | [] => [s]
  | t :: ts => if strLe s t then s :: t :: ts else t :: insertSorted s ts

/-- Lexicographically sorted labels (engine.go lines 211-214; the Go code
sorts in place with sort.Sort, whose algorithm is immaterial). -/
def sortStrings : List String → List String
  | [] => []
  | s :: ss => insertSorted s (sortStrings ss)

/-- Blank container row returned by insert (engine.go line 204). -/
def blankContainerRow (i : Nat) : ContainerRow := ⟨i, [], "", [], []⟩

/-- Committed row of a matched container pair: Command, Image and Env from
the desired container, Labels from the desired container sorted
lexicographically (engine.go lines 207-220). -/
def mkContainerRow (id : Nat) (c : Container) : ContainerRow :=
  ⟨id, c.Command, c.Image, c.Env, sortStrings c.Labels⟩

/-- Engine updateContainers (engine.go lines 182-221): scored matching of
the desired containers against the view rows; unmatched view rows are
removed, unmatched desired ones get fresh handles, every pair is
committed. -/
def updateContainers (view : Database) (spec : Stitch) : Database × List Op :=
  let desired := queryContainers spec
  let res := scoredMatch score desired view.containers
  let tbl₁ := eraseEach view.containers res.2.2
  let newPairs := allocRows blankContainerRow view.nextID res.2.1
  let tbl₂ := tbl₁ ++ newPairs.map Prod.snd
  let committed := res.1 ++ newPairs
  let tbl₃ := committed.foldl
    (fun t pr => commitById (fun r => r.ID) t (mkContainerRow pr.2.ID pr.1)) tbl₂
  ({ view with
      nextID := view.nextID + res.2.1.length
      containers := tbl₃ },
   res.2.2.map (fun _ => ⟨.container, .remove⟩)
     ++ res.2.1.map (fun _ => ⟨.container, .insert⟩)
     ++ committed.map (fun _ => ⟨.container, .commit⟩))

/-- Engine updatePolicy (engine.go lines 16-37): compile the specification
text (the external compiler is passed as a parameter since it is out of
scope); on failure return without mutating the view; otherwise reconcile
connections, and, only on the master, placements and then containers. -/
def updatePolicy (compile : String → Option Stitch) (view : Database)
    (role : Role) (specText : String) : Database × List Op :=
  match compile specText with
  | none => (view, [])
  | some spec =>
    let c := updateConnections view spec
    match role with
    | .Master =>
      let p := updatePlacements c.1 spec
      let t := updateContainers p.1 spec
      (t.1, c.2 ++ p.2 ++ t.2)
    | .Worker => c

/-- Well-formed view: row handle IDs are pairwise distinct in each table
and below the fresh-ID source.  The db collaborator guarantees this by
construction. -/
def wellFormed (db : Database) : Prop :=
  (db.connections.map (fun r => r.ID)).Nodup
    ∧ (∀ r ∈ db.connections, r.ID < db.nextID)
    ∧ (db.placements.map (fun r => r.ID)).Nodup
    ∧ (∀ r ∈ db.placements, r.ID < db.nextID)
    ∧ (db.containers.map (fun r => r.ID)).Nodup
    ∧ (∀ r ∈ db.containers, r.ID < db.nextID)

instance : DecidablePred wellFormed := fun db => by
  unfold wellFormed; infer_instance


/-- Every spec-derived placement carries a label rule or a machine rule
with a non-empty value. -/
def specRuleOk (p : Placement) : Prop :=
  (∃ ol e, p.Rule = PlacementRule.labelRule ol e)
    ∨ (∃ e a v, v ≠ "" ∧ p.Rule = PlacementRule.machineRule e a v)

/-- Modelled from the spec: an edit script aligning two label sequences,
counting unit-cost substitutions, deletions and insertions; the edit
distance is the least cost of such a script. -/
inductive Aligns : List String → List String → Nat → Prop where
  | nil : Aligns [] [] 0
  | keep {xs ys : List String} {n : Nat} (x : String) :
      Aligns xs ys n → Aligns (x :: xs) (x :: ys) n
  | sub {xs ys : List String} {n : Nat} (x y : String) :
      Aligns xs ys n → Aligns (x :: xs) (y :: ys) (n + 1)
  | del {xs ys : List String} {n : Nat} (x : String) :
      Aligns xs ys n → Aligns (x :: xs) ys (n + 1)
  | ins {xs ys : List String} {n : Nat} (y : String) :
      Aligns xs ys n → Aligns xs (y :: ys) (n + 1)

/-- Field values committed for a desired container: Command, Image, Env
copied, Labels sorted lexicographically. -/
def desiredContainerFields (d : Container) : Container :=
  ⟨d.Command, d.Image, d.Env, sortStrings d.Labels⟩

/-- Excess filter: drop, for each key, as many earliest elements as the
budget allows; this characterizes which view rows the equality join
leaves unmatched. -/
def filterExcess {β κ : Type} [DecidableEq κ] (kr : β → κ) :
    (κ → Nat) → List β → List β
  | _, [] => []
  | c, b :: r =>
    if 0 < c (kr b) then
      filterExcess kr (fun k => if k = kr b then c k - 1 else c k) r
    else b :: filterExcess kr c r

/-- Rows committed by the insert-and-commit loop of updatePlacements. -/
def mkPlacementRows : Nat → List Placement → List PlacementRow
  | _, [] => []
  | i, p :: ps => ⟨i, p.TargetLabel, p.Rule⟩ :: mkPlacementRows (i + 1) ps

/-- A specification exercising the optimal-assignment tie-break of the
container reconciler: two interchangeable desired containers. -/
def specC2 : Stitch :=
  ⟨[], [], [⟨1, [], "i", []⟩, ⟨2, [], "i", []⟩],
   [("b", [1, 2]), ("a", [1, 2]), ("z", [2])]⟩

/-- A view whose two container rows admit two optimal matchings of equal
total cost against the desired containers of specC2. -/
def viewC2 : Database :=
  ⟨2, [], [],
   [⟨0, [], "i", [], ["b", "a", "z", "z", "z"]⟩, ⟨1, [], "i", [], ["q"]⟩]⟩

/-- First run of updatePolicy on the tie-break scenario. -/
def passOne : Database × List Op :=
  updatePolicy (fun _ => some specC2) viewC2 .Master ""

/-- Second run of updatePolicy on the tie-break scenario. -/
def passTwo : Database × List Op :=
  updatePolicy (fun _ => some specC2) passOne.1 .Master ""

/-- The empty specification. -/
def specW : Stitch := ⟨[], [], [], []⟩

/-- A compiler that always yields the empty specification. -/
def compileW : String → Option Stitch := fun _ => some specW

/-- The empty view. -/
def viewW : Database := ⟨0, [], [], []⟩

/-- First run of updatePolicy on the empty specification and view. -/
def passOneW : Database × List Op := updatePolicy compileW viewW .Master ""

/-- Second run of updatePolicy on the empty specification and view. -/
def passTwoW : Database × List Op := updatePolicy compileW passOneW.1 .Master ""

/-! ## Basic facts about the placement derivation -/

theorem mem_insertPlacementSet {s : List Placement} {p q : Placement}
    (h : q ∈ insertPlacementSet s p) : q ∈ s ∨ q = p := by
  unfold insertPlacementSet at h
  by_cases hp : p ∈ s
  · simp [hp] at h
    exact Or.inl h
  · simp [hp] at h
    exact h

theorem insertPlacementSet_nodup {s : List Placement} {p : Placement}
    (h : s.Nodup) : (insertPlacementSet s p).Nodup := by
  unfold insertPlacementSet
  by_cases hp : p ∈ s
  · simpa [hp]
  · simp only [hp, if_false]
    rw [List.nodup_append]
    exact ⟨h, List.nodup_singleton p, by simpa [List.disjoint_singleton] using hp⟩

theorem toDBPlacements_ok (sps : List StitchPlacement) :
    (∀ p ∈ toDBPlacements sps, specRuleOk p) ∧ (toDBPlacements sps).Nodup := by
  unfold toDBPlacements
  refine List.foldlRecOn (motive := fun s => (∀ p ∈ s, specRuleOk p) ∧ s.Nodup)
    sps _ [] ⟨by simp, List.nodup_nil⟩ ?_
  intro s hs sp _
  have h₁ : (∀ p ∈ sp.OtherLabels.foldl
      (fun s lab =>
        insertPlacementSet s ⟨sp.TargetLabel, .labelRule lab sp.Exclusive⟩) s,
        specRuleOk p)
      ∧ (sp.OtherLabels.foldl
      (fun s lab =>
        insertPlacementSet s ⟨sp.TargetLabel, .labelRule lab sp.Exclusive⟩) s).Nodup := by
    refine List.foldlRecOn (motive := fun s => (∀ p ∈ s, specRuleOk p) ∧ s.Nodup)
      sp.OtherLabels _ s hs ?_
    intro s' hs' lab _
    refine ⟨?_, insertPlacementSet_nodup hs'.2⟩
    intro q hq
    rcases mem_insertPlacementSet hq with h | rfl
    · exact hs'.1 q h
    · exact Or.inl ⟨lab, sp.Exclusive, rfl⟩
  refine List.foldlRecOn (motive := fun s => (∀ p ∈ s, specRuleOk p) ∧ s.Nodup)
    sp.MachineAttributes _ _ h₁ ?_
  intro s' hs' av _
  by_cases hv : av.2 = ""
  · simpa [hv] using hs'
  · simp only [hv, if_false]
    refine ⟨?_, insertPlacementSet_nodup hs'.2⟩
    intro q hq
    rcases mem_insertPlacementSet hq with h | rfl
    · exact hs'.1 q h
    · exact Or.inr ⟨sp.Exclusive, av.1, av.2, hv, rfl⟩

theorem makeConnectionPlacements_shape {conns : List ConnectionRow} {q : Placement}
    (h : q ∈ makeConnectionPlacements conns) : ∃ port, q.Rule = PlacementRule.portRule port := by
  unfold makeConnectionPlacements at h
  rw [List.mem_flatMap] at h
  rcases h with ⟨c, _, hq⟩
  by_cases hc : c.From = PublicInternetLabel
  · simp only [hc, if_true, List.mem_map] at hq
    rcases hq with ⟨p, _, rfl⟩
    exact ⟨p, rfl⟩
  · simp [hc] at hq

/-- C9: the placements derived from the placement directives of the
specification never contain a MachineRule with an empty Value; attributes
with empty values are skipped during derivation. -/
theorem claim9_no_empty_machine_value (sps : List StitchPlacement)
    (p : Placement) (hp : p ∈ toDBPlacements sps) (e : Bool) (attr : String) :
    p.Rule ≠ PlacementRule.machineRule e attr "" := by
  rcases (toDBPlacements_ok sps).1 p hp with ⟨ol, e', h⟩ | ⟨e', a, v, hv, h⟩
  · rw [h]
    intro hEq
    exact PlacementRule.noConfusion hEq
  · rw [h]
    intro hEq
    injection hEq with h₁ h₂ h₃
    exact hv h₃

/-- Witness for C9 at a concrete specification. -/
theorem claim9_witness :
    (⟨"t", PlacementRule.labelRule "x" true⟩ : Placement).Rule
      ≠ PlacementRule.machineRule true "a" "" :=
  claim9_no_empty_machine_value [⟨"t", true, ["x"], [("a", "")]⟩] _ (by decide) true "a"

/-- C1 counterexample: for a view whose current connection set holds two
overlapping public-internet connections to the same label, the desired
placement list handed to the join in updatePlacements contains the same
(TargetLabel, Rule) value twice, so it is not deduplicated. -/
theorem claim1_counterexample :
    ((toDBPlacements [] ++ makeConnectionPlacements
        [⟨0, PublicInternetLabel, "web", 80, 81⟩,
         ⟨1, PublicInternetLabel, "web", 81, 82⟩]).count
      ⟨"web", PlacementRule.portRule 81⟩) = 2 := by decide

/-- C1 amended: only the placements derived from the placement directives
of the specification are deduplicated by (TargetLabel, Rule) value; they
never coincide with a connection-derived placement (which is always a
PortRule), and the connection-derived part is appended without
deduplication, so overlapping public connections to the same label can
repeat a (TargetLabel, Rule) value. -/
theorem claim1_amended (sps : List StitchPlacement) (conns : List ConnectionRow) :
    (toDBPlacements sps).Nodup
      ∧ ∀ p ∈ toDBPlacements sps, p ∉ makeConnectionPlacements conns := by
  refine ⟨(toDBPlacements_ok sps).2, ?_⟩
  intro p hp hq
  rcases makeConnectionPlacements_shape hq with ⟨port, hrule⟩
  rcases (toDBPlacements_ok sps).1 p hp with ⟨ol, e, h⟩ | ⟨e, a, v, hv, h⟩
  · rw [h] at hrule
    exact PlacementRule.noConfusion hrule
  · rw [h] at hrule
    exact PlacementRule.noConfusion hrule

/-- Witness for C1 amended at a concrete specification and view. -/
theorem claim1_witness :
    (toDBPlacements [⟨"t", true, ["x"], []⟩]).Nodup
      ∧ (⟨"t", PlacementRule.labelRule "x" true⟩ : Placement)
          ∉ makeConnectionPlacements [⟨0, PublicInternetLabel, "web", 80, 80⟩] :=
  ⟨(claim1_amended [⟨"t", true, ["x"], []⟩] []).1,
   (claim1_amended [⟨"t", true, ["x"], []⟩]
      [⟨0, PublicInternetLabel, "web", 80, 80⟩]).2 _ (by decide)⟩

/-- C4: on compilation failure updatePolicy returns without issuing any
mutation: the view is returned unchanged and the trace is empty. -/
theorem claim4_compile_failure (compile : String → Option Stitch) (view : Database)
    (role : Role) (text : String) (h : compile text = none) :
    updatePolicy compile view role text = (view, []) := by
  unfold updatePolicy
  rw [h]

/-- Witness for C4 at a concrete failing compiler. -/
theorem claim4_witness :
    updatePolicy (fun _ => none) ⟨0, [], [], []⟩ Role.Master "bad spec"
      = (⟨0, [], [], []⟩, []) :=
  claim4_compile_failure _ _ _ _ rfl

/-! ## Frame facts about the reconcilers -/

theorem updateConnections_frame (view : Database) (spec : Stitch) :
    (updateConnections view spec).1.placements = view.placements
      ∧ (updateConnections view spec).1.containers = view.containers := by
  constructor <;> rfl

theorem updateConnections_ops (view : Database) (spec : Stitch) :
    ∀ op ∈ (updateConnections view spec).2, op.table = EntityKind.conn := by
  intro op hop
  simp only [updateConnections, List.mem_append, List.mem_map] at hop
  rcases hop with (⟨x, _, rfl⟩ | ⟨x, _, rfl⟩) | ⟨x, _, rfl⟩ <;> rfl

/-- C3: with role Worker, updatePolicy leaves the placement and container
tables untouched and issues mutations only against the connection table;
with role Master it runs the connection, placement and container
reconcilers in that order. -/
theorem claim3_role_gating (compile : String → Option Stitch) (view : Database)
    (text : String) (spec : Stitch) (h : compile text = some spec) :
    ((updatePolicy compile view Role.Worker text).1.placements = view.placements
      ∧ (updatePolicy compile view Role.Worker text).1.containers = view.containers
      ∧ ∀ op ∈ (updatePolicy compile view Role.Worker text).2,
          op.table = EntityKind.conn)
    ∧ (updatePolicy compile view Role.Master text).1
        = (updateContainers (updatePlacements (updateConnections view spec).1 spec).1
            spec).1
    ∧ (updatePolicy compile view Role.Master text).2
        = (updateConnections view spec).2
          ++ ((updatePlacements (updateConnections view spec).1 spec).2
          ++ (updateContainers (updatePlacements (updateConnections view spec).1
                spec).1 spec).2) := by
  unfold updatePolicy
  rw [h]
  refine ⟨⟨(updateConnections_frame view spec).1,
    (updateConnections_frame view spec).2, updateConnections_ops view spec⟩, rfl, ?_⟩
  simp [List.append_assoc]

/-- Witness for C3 at a concrete compiler, view and specification. -/
theorem claim3_witness :
    (updatePolicy (fun _ => some ⟨[], [], [], []⟩) ⟨0, [], [], []⟩ Role.Worker
      "t").1.placements = (⟨0, [], [], []⟩ : Database).placements :=
  (claim3_role_gating (fun _ => some ⟨[], [], [], []⟩) ⟨0, [], [], []⟩ "t"
    ⟨[], [], [], []⟩ rfl).1.1

/-! ## Port expansion -/

theorem portList_mem {lo hi p : Int} : p ∈ portList lo hi ↔ lo ≤ p ∧ p ≤ hi := by
  unfold portList
  rw [List.mem_map]
  constructor
  · rintro ⟨i, hi', rfl⟩
    rw [List.mem_range] at hi'
    omega
  · intro hp
    refine ⟨(p - lo).toNat, ?_, by omega⟩
    rw [List.mem_range]
    omega

theorem portList_nodup (lo hi : Int) : (portList lo hi).Nodup := by
  unfold portList
  refine List.Nodup.map ?_ (List.nodup_range _)
  intro a b hab
  simpa using hab

theorem portList_count (lo hi p : Int) :
    (portList lo hi).count p = if lo ≤ p ∧ p ≤ hi then 1 else 0 := by
  by_cases h : lo ≤ p ∧ p ≤ hi
  · rw [if_pos h]
    exact List.count_eq_one_of_mem (portList_nodup lo hi) (portList_mem.mpr h)
  · rw [if_neg h]
    exact List.count_eq_zero.mpr (fun hm => h (portList_mem.mp hm))

theorem count_connPlacements (c : ConnectionRow) (tl : String) (p : Int) :
    (((portList c.MinPort c.MaxPort).map
        (fun q => (⟨c.To, .portRule q⟩ : Placement))).count ⟨tl, .portRule p⟩)
      = if c.To = tl ∧ c.MinPort ≤ p ∧ p ≤ c.MaxPort then 1 else 0 := by
  by_cases htl : c.To = tl
  · subst htl
    have hinj : Function.Injective (fun q => (⟨c.To, .portRule q⟩ : Placement)) := by
      intro a b hab
      simpa [Placement.mk.injEq] using hab
    rw [show (⟨c.To, .portRule p⟩ : Placement)
        = (fun q => (⟨c.To, .portRule q⟩ : Placement)) p from rfl,
      List.count_map_of_injective _ _ hinj, portList_count]
    simp
  · rw [List.count_eq_zero.mpr, if_neg (by tauto)]
    intro hm
    rw [List.mem_map] at hm
    rcases hm with ⟨q, _, hq⟩
    exact htl (congrArg Placement.TargetLabel hq)

/-- C5: the connection-derived placements hold exactly one PortRule per
integer port in the range of each public-internet connection, targeting
its destination label; non-public connections contribute nothing; every
element is a PortRule; and the 80-82 example yields exactly the three
ports 80, 81, 82. -/
theorem claim5_port_expansion (conns : List ConnectionRow) (tl : String) (p : Int) :
    ((makeConnectionPlacements conns).count ⟨tl, .portRule p⟩
      = conns.countP (fun c => c.From == PublicInternetLabel && c.To == tl
          && decide (c.MinPort ≤ p) && decide (p ≤ c.MaxPort)))
    ∧ (∀ q ∈ makeConnectionPlacements conns, ∃ port, q.Rule = .portRule port)
    ∧ makeConnectionPlacements [⟨0, PublicInternetLabel, "web", 80, 82⟩]
        = [⟨"web", .portRule 80⟩, ⟨"web", .portRule 81⟩, ⟨"web", .portRule 82⟩] := by
  refine ⟨?_, fun q hq => makeConnectionPlacements_shape hq, by decide⟩
  induction conns with
  | nil => simp [makeConnectionPlacements]
  | cons c cs ih =>
    rw [makeConnectionPlacements, List.flatMap_cons, ← makeConnectionPlacements,
      List.count_append, List.countP_cons, ih]
    by_cases hc : c.From = PublicInternetLabel
    · rw [if_pos hc, count_connPlacements]
      by_cases hrest : c.To = tl ∧ c.MinPort ≤ p ∧ p ≤ c.MaxPort
      · rw [if_pos hrest]
        have : (c.From == PublicInternetLabel && c.To == tl
            && decide (c.MinPort ≤ p) && decide (p ≤ c.MaxPort)) = true := by
          simp [hc, hrest.1, hrest.2.1, hrest.2.2]
        rw [this]
        simp [Nat.add_comm]
      · rw [if_neg hrest]
        have : (c.From == PublicInternetLabel && c.To == tl
            && decide (c.MinPort ≤ p) && decide (p ≤ c.MaxPort)) = false := by
          rcases Decidable.not_and_iff_or_not.mp hrest with h | h
          · simp [h]
          · rcases Decidable.not_and_iff_or_not.mp h with h | h <;> simp [h]
        rw [this]
        simp
    · rw [if_neg hc]
      have : (c.From == PublicInternetLabel && c.To == tl
          && decide (c.MinPort ≤ p) && decide (p ≤ c.MaxPort)) = false := by
        simp [hc]
      rw [this]
      simp

/-- Witness for C5 at a concrete connection list. -/
theorem claim5_witness :
    (makeConnectionPlacements [⟨0, PublicInternetLabel, "web", 80, 82⟩]).count
        ⟨"web", .portRule 81⟩
      = ([⟨0, PublicInternetLabel, "web", 80, 82⟩] :
          List ConnectionRow).countP (fun c => c.From == PublicInternetLabel
            && c.To == "web" && decide (c.MinPort ≤ 81) && decide (81 ≤ c.MaxPort)) :=
  (claim5_port_expansion [⟨0, PublicInternetLabel, "web", 80, 82⟩] "web" 81).1

/-! ## Edit distance: lev computes the minimal edit script cost -/

theorem lev_nil_left (ys : List String) : lev [] ys = ys.length := rfl

theorem lev_nil_right (xs : List String) : lev xs [] = xs.length := by
  cases xs <;> rfl

theorem lev_cons_cons (x y : String) (xs ys : List String) :
    lev (x :: xs) (y :: ys) = if x = y then lev xs ys
      else 1 + min (lev xs (y :: ys)) (min (lev (x :: xs) ys) (lev xs ys)) := rfl

theorem aligns_nil_left : ∀ ys : List String, Aligns [] ys ys.length
  | [] => .nil
  | y :: ys => .ins y (aligns_nil_left ys)

theorem aligns_nil_right : ∀ xs : List String, Aligns xs [] xs.length
  | [] => .nil
  | x :: xs => .del x (aligns_nil_right xs)

theorem lev_bounds :
    ∀ m : Nat, ∀ xs ys : List String, xs.length + ys.length ≤ m →
      (∀ x, lev (x :: xs) ys ≤ 1 + lev xs ys)
      ∧ (∀ y, lev xs (y :: ys) ≤ 1 + lev xs ys)
      ∧ (∀ y, lev xs ys ≤ 1 + lev xs (y :: ys))
      ∧ (∀ x, lev xs ys ≤ 1 + lev (x :: xs) ys) := by
  intro m
  induction m with
  | zero =>
    intro xs ys h
    have hx : xs = [] := List.length_eq_zero.mp (by omega)
    have hy : ys = [] := List.length_eq_zero.mp (by omega)
    subst hx
    subst hy
    refine ⟨?_, ?_, ?_, ?_⟩ <;> intro z <;>
      simp [lev_nil_left, lev_nil_right]
  | succ m ih =>
    intro xs ys h
    refine ⟨?_, ?_, ?_, ?_⟩
    · intro x
      cases ys with
      | nil =>
        simp only [lev_nil_right, List.length_cons]
        omega
      | cons y ys =>
        have hm : xs.length + ys.length ≤ m := by
          simp only [List.length_cons] at h
          omega
        rw [lev_cons_cons]
        by_cases hxy : x = y
        · rw [if_pos hxy]
          exact (ih xs ys hm).2.2.1 y
        · rw [if_neg hxy]
          omega
    · intro y
      cases xs with
      | nil =>
        simp only [lev_nil_left, List.length_cons]
        omega
      | cons x xs =>
        have hm : xs.length + ys.length ≤ m := by
          simp only [List.length_cons] at h
          omega
        rw [lev_cons_cons]
        by_cases hxy : x = y
        · rw [if_pos hxy]
          exact (ih xs ys hm).2.2.2 x
        · rw [if_neg hxy]
          omega
    · intro y
      cases xs with
      | nil =>
        simp only [lev_nil_left, List.length_cons]
        omega
      | cons x xs =>
        have hm : xs.length + ys.length ≤ m := by
          simp only [List.length_cons] at h
          omega
        rw [lev_cons_cons]
        by_cases hxy : x = y
        · rw [if_pos hxy]
          subst hxy
          exact (ih xs ys hm).1 x
        · rw [if_neg hxy]
          have h2 := (ih xs ys hm).1 x
          have h4 := (ih xs ys hm).2.2.1 y
          omega
    · intro x
      cases ys with
      | nil =>
        simp only [lev_nil_right, List.length_cons]
        omega
      | cons y ys =>
        have hm : xs.length + ys.length ≤ m := by
          simp only [List.length_cons] at h
          omega
        rw [lev_cons_cons]
        by_cases hxy : x = y
        · rw [if_pos hxy]
          subst hxy
          exact (ih xs ys hm).2.1 x
        · rw [if_neg hxy]
          have h3 := (ih xs ys hm).2.1 y
          have h5 := (ih xs ys hm).2.2.2 x
          omega

theorem lev_sub_le (x y : String) (xs ys : List String) :
    lev (x :: xs) (y :: ys) ≤ 1 + lev xs ys := by
  rw [lev_cons_cons]
  by_cases hxy : x = y
  · rw [if_pos hxy]
    omega
  · rw [if_neg hxy]
    omega

theorem lev_del_le (x : String) (xs ys : List String) :
    lev (x :: xs) ys ≤ 1 + lev xs ys :=
  (lev_bounds (xs.length + ys.length) xs ys le_rfl).1 x

theorem lev_ins_le (y : String) (xs ys : List String) :
    lev xs (y :: ys) ≤ 1 + lev xs ys :=
  (lev_bounds (xs.length + ys.length) xs ys le_rfl).2.1 y

theorem aligns_lev_le {xs ys : List String} {n : Nat} (h : Aligns xs ys n) :
    lev xs ys ≤ n := by
  induction h with
  | nil => simp [lev_nil_left]
  | keep x h ih =>
    rw [lev_cons_cons, if_pos rfl]
    exact ih
  | @sub xs ys n x y h ih =>
    have := lev_sub_le x y xs ys
    omega
  | @del xs ys n x h ih =>
    have := lev_del_le x xs ys
    omega
  | @ins xs ys n y h ih =>
    have := lev_ins_le y xs ys
    omega

theorem lev_aligns_aux :
    ∀ m : Nat, ∀ xs ys : List String, xs.length + ys.length ≤ m →
      Aligns xs ys (lev xs ys) := by
  intro m
  induction m with
  | zero =>
    intro xs ys h
    have hx : xs = [] := List.length_eq_zero.mp (by omega)
    have hy : ys = [] := List.length_eq_zero.mp (by omega)
    subst hx
    subst hy
    rw [lev_nil_left]
    exact Aligns.nil
  | succ m ih =>
    intro xs ys h
    cases xs with
    | nil =>
      rw [lev_nil_left]
      exact aligns_nil_left ys
    | cons x xs =>
      cases ys with
      | nil =>
        rw [lev_nil_right]
        exact aligns_nil_right (x :: xs)
      | cons y ys =>
        have hm₁ : xs.length + (y :: ys).length ≤ m := by
          simp only [List.length_cons] at h ⊢
          omega
        have hm₂ : (x :: xs).length + ys.length ≤ m := by
          simp only [List.length_cons] at h ⊢
          omega
        have hm₃ : xs.length + ys.length ≤ m := by
          simp only [List.length_cons] at h
          omega
        rw [lev_cons_cons]
        by_cases hxy : x = y
        · rw [if_pos hxy]
          subst hxy
          exact Aligns.keep x (ih xs ys hm₃)
        · rw [if_neg hxy]
          have hd : min (lev xs (y :: ys)) (min (lev (x :: xs) ys) (lev xs ys))
                = lev xs (y :: ys)
              ∨ min (lev xs (y :: ys)) (min (lev (x :: xs) ys) (lev xs ys))
                = lev (x :: xs) ys
              ∨ min (lev xs (y :: ys)) (min (lev (x :: xs) ys) (lev xs ys))
                = lev xs ys := by
            omega
          rcases hd with hd | hd | hd <;> rw [hd, Nat.add_comm]
          · exact Aligns.del x (ih xs (y :: ys) hm₁)
          · exact Aligns.ins y (ih (x :: xs) ys hm₂)
          · exact Aligns.sub x y (ih xs ys hm₃)

theorem lev_aligns (xs ys : List String) : Aligns xs ys (lev xs ys) :=
  lev_aligns_aux (xs.length + ys.length) xs ys le_rfl

/-! ## Env map equality -/

theorem lookup_eq_none_of_not_mem {m : List (String × String)} {k : String}
    (h : k ∉ m.map Prod.fst) : m.lookup k = none := by
  induction m with
  | nil => rfl
  | cons kv m ih =>
    obtain ⟨k₁, v₁⟩ := kv
    simp only [List.map_cons, List.mem_cons] at h
    push_neg at h
    rw [List.lookup]
    rw [show (k == k₁) = false from beq_eq_false_iff_ne.mpr h.1]
    exact ih h.2

theorem strStrMapEqual_iff (m₁ m₂ : List (String × String)) :
    StrStrMapEqual m₁ m₂ = true ↔ ∀ k, m₁.lookup k = m₂.lookup k := by
  unfold StrStrMapEqual
  rw [decide_eq_true_eq]
  constructor
  · intro h k
    by_cases hk : k ∈ m₁.map Prod.fst ++ m₂.map Prod.fst
    · exact h k hk
    · rw [List.mem_append] at hk
      push_neg at hk
      rw [lookup_eq_none_of_not_mem hk.1, lookup_eq_none_of_not_mem hk.2]
  · intro h k _
    exact h k

/-! ## Properties of the scored matching -/

theorem removeOptions_mem {β : Type} {r : List β} {br : β × List β}
    (h : br ∈ removeOptions r) : r.Perm (br.1 :: br.2) := by
  induction r generalizing br with
  | nil => simp [removeOptions] at h
  | cons b r ih =>
    simp only [removeOptions, List.mem_cons, List.mem_map] at h
    rcases h with rfl | ⟨x, hx, rfl⟩
    · exact List.Perm.refl _
    · exact ((ih hx).cons b).trans (List.Perm.swap _ _ _)

theorem matchings_spec {α β : Type} (score : α → β → Int) :
    ∀ (l : List α) (r : List β), ∀ c ∈ matchings score l r,
      (c.1.map Prod.fst ++ c.2.1).Perm l
      ∧ (c.1.map Prod.snd ++ c.2.2).Perm r
      ∧ ∀ pr ∈ c.1, 0 ≤ score pr.1 pr.2 := by
  intro l
  induction l with
  | nil =>
    intro r c hc
    simp only [matchings, List.mem_singleton] at hc
    subst hc
    exact ⟨by simp, by simp, by simp⟩
  | cons a l ih =>
    intro r c hc
    simp only [matchings, List.mem_append, List.mem_flatMap, List.mem_map,
      List.mem_filter] at hc
    rcases hc with ⟨br, ⟨hbr, hsc⟩, res, hres, rfl⟩ | ⟨res, hres, rfl⟩
    · obtain ⟨h₁, h₂, h₃⟩ := ih br.2 res hres
      refine ⟨?_, ?_, ?_⟩
      · simpa using h₁.cons a
      · simpa using (h₂.cons br.1).trans (removeOptions_mem hbr).symm
      · intro pr hpr
        rcases List.mem_cons.mp hpr with rfl | hpr
        · exact of_decide_eq_true hsc
        · exact h₃ pr hpr
    · obtain ⟨h₁, h₂, h₃⟩ := ih r res hres
      refine ⟨?_, h₂, h₃⟩
      exact List.perm_middle.trans (h₁.cons a)

theorem foldl_pick_mem {σ : Type} (bt : σ → σ → Bool) :
    ∀ (cs : List σ) (init : σ),
      cs.foldl (fun best c => if bt c best then c else best) init = init
        ∨ cs.foldl (fun best c => if bt c best then c else best) init ∈ cs := by
  intro cs
  induction cs with
  | nil =>
    intro init
    exact Or.inl rfl
  | cons c cs ih =>
    intro init
    rw [List.foldl_cons]
    rcases ih (if bt c init then c else init) with h | h
    · rw [h]
      by_cases hb : bt c init
      · rw [if_pos hb]
        exact Or.inr (List.mem_cons_self c cs)
      · rw [if_neg hb]
        exact Or.inl rfl
    · exact Or.inr (List.mem_cons_of_mem c h)

theorem foldl_pick_reaches {σ : Type} (bt : σ → σ → Bool)
    (htrans : ∀ x y z, bt x y = true → bt y z = true → bt x z = true) :
    ∀ (cs : List σ) (init : σ),
      cs.foldl (fun best c => if bt c best then c else best) init = init
        ∨ bt (cs.foldl (fun best c => if bt c best then c else best) init) init
            = true := by
  intro cs
  induction cs with
  | nil =>
    intro init
    exact Or.inl rfl
  | cons c cs ih =>
    intro init
    rw [List.foldl_cons]
    by_cases hb : bt c init
    · rw [if_pos hb]
      rcases ih c with h | h
      · rw [h]
        exact Or.inr hb
      · exact Or.inr (htrans _ _ _ h hb)
    · rw [if_neg hb]
      exact ih init

theorem foldl_pick_opt {σ : Type} (bt : σ → σ → Bool)
    (htrans : ∀ x y z, bt x y = true → bt y z = true → bt x z = true)
    (hirrefl : ∀ x, bt x x = false) :
    ∀ (cs : List σ) (init : σ) (c : σ), c ∈ cs →
      bt c (cs.foldl (fun best c => if bt c best then c else best) init) = false := by
  intro cs
  induction cs with
  | nil =>
    intro init c hc
    simp at hc
  | cons c₀ cs ih =>
    intro init c hc
    rw [List.foldl_cons]
    rcases List.mem_cons.mp hc with rfl | hc
    · by_cases hb : bt c init
      · rw [if_pos hb]
        rcases foldl_pick_reaches bt htrans cs c with h | h
        · rw [h]
          exact hirrefl c
        · refine Bool.eq_false_iff.mpr (fun hcr => ?_)
          have := htrans c _ c hcr h
          rw [hirrefl c] at this
          exact Bool.false_ne_true this
      · rw [if_neg hb]
        rcases foldl_pick_reaches bt htrans cs init with h | h
        · rw [h]
          simp only [Bool.not_eq_true] at hb
          exact hb
        · refine Bool.eq_false_iff.mpr (fun hcr => ?_)
          exact hb (htrans c _ init hcr h)
    · exact ih _ c hc

theorem betterMatch_trans {α β : Type} (score : α → β → Int)
    (x y z : Matching α β) (h₁ : betterMatch score x y = true)
    (h₂ : betterMatch score y z = true) : betterMatch score x z = true := by
  simp only [betterMatch, Bool.or_eq_true, Bool.and_eq_true, decide_eq_true_eq,
    beq_iff_eq] at h₁ h₂ ⊢
  omega

theorem betterMatch_irrefl {α β : Type} (score : α → β → Int)
    (x : Matching α β) : betterMatch score x x = false := by
  simp [betterMatch]

theorem scoredMatch_cases {α β : Type} (score : α → β → Int)
    (l : List α) (r : List β) :
    scoredMatch score l r ∈ matchings score l r
      ∨ scoredMatch score l r = ([], l, r) := by
  unfold scoredMatch
  rcases foldl_pick_mem (betterMatch score) (matchings score l r) ([], l, r)
    with h | h
  · exact Or.inr h
  · exact Or.inl h

theorem scoredMatch_spec {α β : Type} (score : α → β → Int)
    (l : List α) (r : List β) :
    ((scoredMatch score l r).1.map Prod.fst ++ (scoredMatch score l r).2.1).Perm l
    ∧ ((scoredMatch score l r).1.map Prod.snd ++ (scoredMatch score l r).2.2).Perm r
    ∧ ∀ pr ∈ (scoredMatch score l r).1, 0 ≤ score pr.1 pr.2 := by
  rcases scoredMatch_cases score l r with h | h
  · exact matchings_spec score l r _ h
  · rw [h]
    exact ⟨by simp, by simp, by simp⟩

theorem scoredMatch_not_better {α β : Type} (score : α → β → Int)
    (l : List α) (r : List β) (c : Matching α β) (hc : c ∈ matchings score l r) :
    betterMatch score c (scoredMatch score l r) = false := by
  unfold scoredMatch
  exact foldl_pick_opt (betterMatch score) (betterMatch_trans score)
    (betterMatch_irrefl score) (matchings score l r) ([], l, r) c hc

theorem scoredMatch_maximal {α β : Type} (score : α → β → Int)
    (l : List α) (r : List β) (c : Matching α β) (hc : c ∈ matchings score l r) :
    c.1.length ≤ (scoredMatch score l r).1.length := by
  have h := scoredMatch_not_better score l r c hc
  simp only [betterMatch, Bool.or_eq_false_iff, Bool.and_eq_false_iff,
    decide_eq_false_iff_not, beq_eq_false_iff_ne, ne_eq, not_lt] at h
  rcases h with ⟨h₁, h₂ | h₂⟩ <;> omega

/-- C7: the container score returns the incompatible marker -1 exactly
when the two containers differ in Image, Command (element-wise) or Env
(same keys and values); otherwise it returns the token-level edit
distance between the Label sequences, where lev is exactly the minimal
cost of an edit script (unit-cost insertions, deletions, substitutions
over atomic label tokens); and the scored matching never pairs an
incompatible pair. -/
theorem claim7_score_characterization :
    (∀ (l : Container) (r : ContainerRow),
        (score l r = -1 ↔ (l.Image ≠ r.Image ∨ l.Command ≠ r.Command
          ∨ ¬ ∀ k, l.Env.lookup k = r.Env.lookup k))
        ∧ (score l r ≠ -1 → score l r = (lev l.Labels r.Labels : Int)))
    ∧ (∀ xs ys : List String,
        Aligns xs ys (lev xs ys) ∧ ∀ n, Aligns xs ys n → lev xs ys ≤ n)
    ∧ (∀ (ds : List Container) (rows : List ContainerRow),
        ∀ pr ∈ (scoredMatch score ds rows).1, 0 ≤ score pr.1 pr.2) := by
  refine ⟨?_, fun xs ys => ⟨lev_aligns xs ys, fun n h => aligns_lev_le h⟩,
    fun ds rows pr hpr => (scoredMatch_spec score ds rows).2.2 pr hpr⟩
  intro l r
  have hcond : (decide (l.Image ≠ r.Image) || !StrSliceEqual l.Command r.Command
        || !StrStrMapEqual l.Env r.Env) = true
      ↔ (l.Image ≠ r.Image ∨ l.Command ≠ r.Command
        ∨ ¬ ∀ k, l.Env.lookup k = r.Env.lookup k) := by
    simp only [Bool.or_eq_true, decide_eq_true_eq, Bool.not_eq_true',
      StrSliceEqual, beq_eq_false_iff_ne, ne_eq]
    constructor
    · rintro ((h | h) | h)
      · exact Or.inl h
      · exact Or.inr (Or.inl h)
      · refine Or.inr (Or.inr (fun hall => ?_))
        rw [(strStrMapEqual_iff l.Env r.Env).mpr hall] at h
        simp at h
    · rintro (h | h | h)
      · exact Or.inl (Or.inl h)
      · exact Or.inl (Or.inr h)
      · cases hb : StrStrMapEqual l.Env r.Env
        · exact Or.inr rfl
        · exact absurd ((strStrMapEqual_iff l.Env r.Env).mp hb) h
  constructor
  · unfold score
    split
    · rename_i hC
      exact ⟨fun _ => hcond.mp hC, fun _ => rfl⟩
    · rename_i hC
      constructor
      · intro h
        omega
      · intro h
        exact absurd (hcond.mpr h) (by simpa using hC)
  · unfold score
    split
    · intro h
      exact absurd rfl h
    · intro _
      rfl

/-- Witness for C7 at a concrete incompatible pair. -/
theorem claim7_witness :
    score ⟨[], "a", [], []⟩ ⟨0, [], "b", [], []⟩ = -1 :=
  (claim7_score_characterization.1 _ _).1.mpr (Or.inl (by decide))

/-! ## Properties of the equality join -/

theorem extractFirst_none {β : Type} {p : β → Bool} :
    ∀ {r : List β}, extractFirst p r = none ↔ ∀ x ∈ r, p x = false := by
  intro r
  induction r with
  | nil => simp [extractFirst]
  | cons c r ih =>
    rw [extractFirst]
    by_cases hc : p c
    · simp [hc]
    · rw [if_neg hc]
      constructor
      · intro h x hx
        rcases List.mem_cons.mp hx with rfl | hx
        · simpa using hc
        · cases hq : extractFirst p r with
          | none => exact ih.mp hq x hx
          | some y =>
            rw [hq] at h
            simp at h
      · intro h
        rw [ih.mpr (fun x hx => h x (List.mem_cons_of_mem c hx))]
        rfl

theorem extractFirst_some {β : Type} {p : β → Bool} :
    ∀ {r : List β} {b : β} {r₁ : List β}, extractFirst p r = some (b, r₁) →
      p b = true ∧ ∃ pre post, r = pre ++ b :: post ∧ r₁ = pre ++ post
        ∧ ∀ x ∈ pre, p x = false := by
  intro r
  induction r with
  | nil =>
    intro b r₁ h
    simp [extractFirst] at h
  | cons c r ih =>
    intro b r₁ h
    by_cases hc : p c
    · rw [extractFirst, if_pos hc] at h
      injection h with h
      injection h with h₁ h₂
      subst h₁
      subst h₂
      exact ⟨hc, [], r, rfl, rfl, by simp⟩
    · rw [extractFirst, if_neg hc] at h
      cases hx : extractFirst p r with
      | none =>
        rw [hx] at h
        exact absurd h (by simp)
      | some x =>
        obtain ⟨b', r'⟩ := x
        rw [hx] at h
        have h' : ((b', c :: r') : β × List β) = (b, r₁) := by simpa using h
        injection h' with h₁ h₂
        subst h₁
        subst h₂
        obtain ⟨hp, pre, post, hr, hr₁, hpre⟩ := ih hx
        refine ⟨hp, c :: pre, post, by rw [hr]; rfl, by rw [hr₁]; rfl, ?_⟩
        intro x hx'
        rcases List.mem_cons.mp hx' with rfl | hx'
        · simpa using hc
        · exact hpre x hx'

theorem extractFirst_some_perm {β : Type} {p : β → Bool} {r : List β}
    {b : β} {r₁ : List β} (h : extractFirst p r = some (b, r₁)) :
    r.Perm (b :: r₁) := by
  obtain ⟨_, pre, post, hr, hr₁, _⟩ := extractFirst_some h
  rw [hr, hr₁]
  exact List.perm_middle

section HashJoinLemmas

variable {α β κ : Type} [DecidableEq κ] (kl : α → κ) (kr : β → κ)

theorem hashJoin_cons (a : α) (l : List α) (r : List β) :
    hashJoin kl kr (a :: l) r =
      match extractFirst (fun b => decide (kr b = kl a)) r with
      | some (b, r₁) => ((a, b) :: (hashJoin kl kr l r₁).1,
          (hashJoin kl kr l r₁).2.1, (hashJoin kl kr l r₁).2.2)
      | none => ((hashJoin kl kr l r).1, a :: (hashJoin kl kr l r).2.1,
          (hashJoin kl kr l r).2.2) := by
  rw [hashJoin]

theorem hashJoin_pairs_key :
    ∀ (l : List α) (r : List β), ∀ pr ∈ (hashJoin kl kr l r).1,
      kr pr.2 = kl pr.1 := by
  intro l
  induction l with
  | nil =>
    intro r pr hpr
    simp [hashJoin] at hpr
  | cons a l ih =>
    intro r pr hpr
    rw [hashJoin_cons] at hpr
    cases hx : extractFirst (fun b => decide (kr b = kl a)) r with
    | some br =>
      obtain ⟨b, r₁⟩ := br
      rw [hx] at hpr
      simp only [List.mem_cons] at hpr
      rcases hpr with rfl | hpr
      · simpa using (extractFirst_some hx).1
      · exact ih r₁ pr hpr
    | none =>
      rw [hx] at hpr
      exact ih r pr hpr

theorem hashJoin_partition_left :
    ∀ (l : List α) (r : List β),
      ((hashJoin kl kr l r).1.map Prod.fst ++ (hashJoin kl kr l r).2.1).Perm l := by
  intro l
  induction l with
  | nil =>
    intro r
    simp [hashJoin]
  | cons a l ih =>
    intro r
    rw [hashJoin_cons]
    cases hx : extractFirst (fun b => decide (kr b = kl a)) r with
    | some br =>
      obtain ⟨b, r₁⟩ := br
      simpa using (ih r₁).cons a
    | none =>
      exact List.perm_middle.trans ((ih r).cons a)

theorem hashJoin_partition_right :
    ∀ (l : List α) (r : List β),
      ((hashJoin kl kr l r).1.map Prod.snd ++ (hashJoin kl kr l r).2.2).Perm r := by
  intro l
  induction l with
  | nil =>
    intro r
    simp [hashJoin]
  | cons a l ih =>
    intro r
    rw [hashJoin_cons]
    cases hx : extractFirst (fun b => decide (kr b = kl a)) r with
    | some br =>
      obtain ⟨b, r₁⟩ := br
      have hperm := extractFirst_some_perm hx
      simpa using ((ih r₁).cons b).trans hperm.symm
    | none =>
      exact ih r

theorem hashJoin_lo_countP (k : κ) :
    ∀ (l : List α) (r : List β),
      (hashJoin kl kr l r).2.1.countP (fun a => decide (kl a = k))
        = l.countP (fun a => decide (kl a = k))
          - r.countP (fun b => decide (kr b = k)) := by
  intro l
  induction l with
  | nil =>
    intro r
    simp [hashJoin]
  | cons a l ih =>
    intro r
    rw [hashJoin_cons]
    cases hx : extractFirst (fun b => decide (kr b = kl a)) r with
    | some br =>
      obtain ⟨b, r₁⟩ := br
      have hkey : kr b = kl a := by simpa using (extractFirst_some hx).1
      have hcnt := (extractFirst_some_perm hx).countP_eq
        (fun x => decide (kr x = k))
      rw [List.countP_cons] at hcnt
      rw [ih r₁, List.countP_cons, hcnt]
      simp only [decide_eq_true_eq]
      by_cases hak : kl a = k
      · rw [if_pos hak, if_pos (hkey.trans hak)]
        omega
      · rw [if_neg hak, if_neg (fun hh => hak (hkey.symm.trans hh))]
        omega
    | none =>
      have hzero : r.countP (fun x => decide (kr x = kl a)) = 0 := by
        rw [List.countP_eq_zero]
        intro x hx₂
        simpa using extractFirst_none.mp hx x hx₂
      rw [List.countP_cons, List.countP_cons, ih r]
      simp only [decide_eq_true_eq]
      by_cases hak : kl a = k
      · subst hak
        rw [hzero, if_pos (Eq.refl (kl a))]
        omega
      · rw [if_neg hak]
        omega
    
theorem hashJoin_ro_countP (k : κ) :
    ∀ (l : List α) (r : List β),
      (hashJoin kl kr l r).2.2.countP (fun b => decide (kr b = k))
        = r.countP (fun b => decide (kr b = k))
          - l.countP (fun a => decide (kl a = k)) := by
  intro l
  induction l with
  | nil =>
    intro r
    simp [hashJoin]
  | cons a l ih =>
    intro r
    rw [hashJoin_cons]
    cases hx : extractFirst (fun b => decide (kr b = kl a)) r with
    | some br =>
      obtain ⟨b, r₁⟩ := br
      have hkey : kr b = kl a := by simpa using (extractFirst_some hx).1
      have hcnt := (extractFirst_some_perm hx).countP_eq
        (fun x => decide (kr x = k))
      rw [List.countP_cons] at hcnt
      rw [ih r₁, List.countP_cons, hcnt]
      simp only [decide_eq_true_eq]
      by_cases hak : kl a = k
      · rw [if_pos hak, if_pos (hkey.trans hak)]
        omega
      · rw [if_neg hak, if_neg (fun hh => hak (hkey.symm.trans hh))]
        omega
    | none =>
      have hzero : r.countP (fun x => decide (kr x = kl a)) = 0 := by
        rw [List.countP_eq_zero]
        intro x hx₂
        simpa using extractFirst_none.mp hx x hx₂
      rw [List.countP_cons, ih r]
      simp only [decide_eq_true_eq]
      by_cases hak : kl a = k
      · subst hak
        rw [hzero, if_pos (Eq.refl (kl a))]
        omega
      · rw [if_neg hak]
        omega

theorem hashJoin_all_matched {l : List α} {r : List β}
    (hcount : ∀ k, l.countP (fun a => decide (kl a = k))
      = r.countP (fun b => decide (kr b = k))) :
    (hashJoin kl kr l r).2.1 = [] ∧ (hashJoin kl kr l r).2.2 = [] := by
  constructor
  · cases hlo : (hashJoin kl kr l r).2.1 with
    | nil => rfl
    | cons a lo =>
      exfalso
      have h1 := hashJoin_lo_countP kl kr (kl a) l r
      rw [hlo, hcount (kl a), List.countP_cons] at h1
      simp only [decide_eq_true_eq] at h1
      rw [if_pos (trivial : True)] at h1
      omega
  · cases hro : (hashJoin kl kr l r).2.2 with
    | nil => rfl
    | cons b ro =>
      exfalso
      have h1 := hashJoin_ro_countP kl kr (kr b) l r
      rw [hro, hcount (kr b), List.countP_cons] at h1
      simp only [decide_eq_true_eq] at h1
      rw [if_pos (trivial : True)] at h1
      omega

end HashJoinLemmas

/-! ## Table manipulation lemmas -/

section TableLemmas

variable {π ρ : Type} [DecidableEq ρ] (gid : ρ → Nat)

theorem commitById_map_gid (tbl : List ρ) (r : ρ) :
    (commitById gid tbl r).map gid = tbl.map gid := by
  unfold commitById
  rw [List.map_map]
  refine List.map_congr_left ?_
  intro x _
  by_cases h : gid x = gid r
  · simp [h]
  · simp [h]

theorem commitById_absent {tbl : List ρ} {r : ρ}
    (h : ∀ x ∈ tbl, gid x ≠ gid r) : commitById gid tbl r = tbl := by
  unfold commitById
  induction tbl with
  | nil => rfl
  | cons t tbl ih =>
    rw [List.map_cons, if_neg (h t (List.mem_cons_self t tbl)),
      ih (fun x hx => h x (List.mem_cons_of_mem t hx))]

theorem commitById_perm {tbl : List ρ} {x₀ r : ρ}
    (hnd : (tbl.map gid).Nodup) (hx : x₀ ∈ tbl) (hid : gid r = gid x₀) :
    (commitById gid tbl r).Perm (r :: tbl.erase x₀) := by
  induction tbl with
  | nil => cases hx
  | cons t tbl ih =>
    rw [List.map_cons, List.nodup_cons] at hnd
    by_cases ht : t = x₀
    · subst ht
      rw [show commitById gid (t :: tbl) r
          = r :: commitById gid tbl r from by
            unfold commitById
            rw [List.map_cons, if_pos hid.symm],
        commitById_absent gid (by
          intro x hx₂ hEq
          refine hnd.1 ?_
          rw [← hid, ← hEq]
          exact List.mem_map_of_mem gid hx₂),
        List.erase_cons_head]
    · have hx' : x₀ ∈ tbl := by
        rcases List.mem_cons.mp hx with h | h
        · exact absurd h.symm ht
        · exact h
      have hgid : gid t ≠ gid r := by
        intro hEq
        exact hnd.1 (by
          rw [hEq, hid]
          exact List.mem_map_of_mem gid hx')
      rw [show commitById gid (t :: tbl) r
          = t :: commitById gid tbl r from by
            unfold commitById
            rw [List.map_cons, if_neg (fun hEq => hgid hEq)],
        List.erase_cons_tail (by simpa using (fun hEq => ht hEq))]
      exact ((ih hnd.2 hx').cons t).trans (List.Perm.swap r t _)

theorem commitFold_map_gid (mk : π × ρ → ρ) (hmk : ∀ pr, gid (mk pr) = gid pr.2) :
    ∀ (ps : List (π × ρ)) (tbl : List ρ),
      ((ps.foldl (fun t pr => commitById gid t (mk pr)) tbl).map gid)
        = tbl.map gid := by
  intro ps
  induction ps with
  | nil =>
    intro tbl
    rfl
  | cons p ps ih =>
    intro tbl
    rw [List.foldl_cons, ih, commitById_map_gid]

theorem commitFold_perm (mk : π × ρ → ρ) (hmk : ∀ pr, gid (mk pr) = gid pr.2) :
    ∀ (ps : List (π × ρ)) (tbl rest : List ρ),
      (tbl.map gid).Nodup →
      tbl.Perm (ps.map Prod.snd ++ rest) →
      (ps.foldl (fun t pr => commitById gid t (mk pr)) tbl).Perm
        (ps.map mk ++ rest) := by
  intro ps
  induction ps with
  | nil =>
    intro tbl rest hnd hperm
    simpa using hperm
  | cons p ps ih =>
    intro tbl rest hnd hperm
    rw [List.foldl_cons]
    rw [List.map_cons, List.cons_append] at hperm
    have hsplit := List.cons_perm_iff_perm_erase.mp hperm.symm
    have hp2 : p.2 ∈ tbl := hsplit.1
    have h1 : (tbl.erase p.2).Perm (ps.map Prod.snd ++ rest) := hsplit.2.symm
    have hstep : (commitById gid tbl (mk p)).Perm (mk p :: tbl.erase p.2) :=
      commitById_perm gid hnd hp2 (hmk p)
    have hnd' : ((commitById gid tbl (mk p)).map gid).Nodup := by
      rw [commitById_map_gid]
      exact hnd
    have hperm' : (commitById gid tbl (mk p)).Perm
        (ps.map Prod.snd ++ (mk p :: rest)) := by
      refine (hstep.trans ((h1.cons (mk p)).trans ?_))
      exact List.perm_middle.symm
    have hres := ih (commitById gid tbl (mk p)) (mk p :: rest) hnd' hperm'
    refine hres.trans ?_
    rw [List.map_cons, List.cons_append]
    exact List.perm_middle

theorem eraseEach_sublist : ∀ (rs tbl : List ρ), (eraseEach tbl rs).Sublist tbl := by
  intro rs
  induction rs with
  | nil =>
    intro tbl
    exact List.Sublist.refl tbl
  | cons r rs ih =>
    intro tbl
    show (eraseEach (tbl.erase r) rs).Sublist tbl
    exact (ih (tbl.erase r)).trans (List.erase_sublist r tbl)

theorem eraseEach_count :
    ∀ (rs tbl : List ρ), (∀ x, rs.count x ≤ tbl.count x) →
      ∀ x, (eraseEach tbl rs).count x = tbl.count x - rs.count x := by
  intro rs
  induction rs with
  | nil =>
    intro tbl _ x
    simp [eraseEach]
  | cons r rs ih =>
    intro tbl hle x
    have hr : r ∈ tbl := by
      have := hle r
      rw [List.count_cons_self] at this
      exact List.count_pos_iff.mp (by omega)
    have hsub : ∀ y, rs.count y ≤ (tbl.erase r).count y := by
      intro y
      by_cases hyr : y = r
      · subst hyr
        rw [List.count_erase_self]
        have := hle y
        rw [List.count_cons_self] at this
        omega
      · rw [List.count_erase_of_ne hyr]
        have := hle y
        rw [List.count_cons_of_ne hyr] at this
        exact this
    show (eraseEach (tbl.erase r) rs).count x = tbl.count x - (r :: rs).count x
    rw [ih (tbl.erase r) hsub x]
    by_cases hxr : x = r
    · subst hxr
      rw [List.count_erase_self, List.count_cons_self]
      have := hle x
      rw [List.count_cons_self] at this
      omega
    · rw [List.count_erase_of_ne hxr, List.count_cons_of_ne hxr]

theorem eraseEach_perm {tbl rs rest : List ρ}
    (hperm : tbl.Perm (rs ++ rest)) : (eraseEach tbl rs).Perm rest := by
  rw [List.perm_iff_count]
  intro x
  have hle : ∀ y, rs.count y ≤ tbl.count y := by
    intro y
    have := hperm.count_eq y
    rw [List.count_append] at this
    omega
  rw [eraseEach_count rs tbl hle x]
  have := hperm.count_eq x
  rw [List.count_append] at this
  omega

end TableLemmas

/-! ## Allocation of fresh row handles -/

theorem allocRows_fst {π ρ : Type} (blank : Nat → ρ) :
    ∀ (i : Nat) (cs : List π), (allocRows blank i cs).map Prod.fst = cs := by
  intro i cs
  induction cs generalizing i with
  | nil => rfl
  | cons c cs ih =>
    rw [allocRows, List.map_cons, ih]

theorem allocRows_snd_ids {π ρ : Type} (blank : Nat → ρ) (gid : ρ → Nat)
    (hb : ∀ j, gid (blank j) = j) :
    ∀ (i : Nat) (cs : List π),
      ((allocRows blank i cs).map Prod.snd).map gid = List.range' i cs.length := by
  intro i cs
  induction cs generalizing i with
  | nil => rfl
  | cons c cs ih =>
    rw [allocRows, List.map_cons, List.map_cons, hb, List.length_cons,
      List.range'_succ, ih]

theorem nodup_ids_append {ρ : Type} (gid : ρ → Nat) {tbl new : List ρ} {n : Nat}
    (h₁ : (tbl.map gid).Nodup) (h₂ : ∀ x ∈ tbl, gid x < n)
    (h₃ : (new.map gid).Nodup) (h₄ : ∀ x ∈ new, n ≤ gid x) :
    ((tbl ++ new).map gid).Nodup := by
  rw [List.map_append, List.nodup_append]
  refine ⟨h₁, h₃, ?_⟩
  intro a ha hb
  rw [List.mem_map] at ha hb
  rcases ha with ⟨x, hx, rfl⟩
  rcases hb with ⟨y, hy, hEq⟩
  have := h₂ x hx
  have := h₄ y hy
  omega

theorem mem_range'_ids {ids : List Nat} {i len : Nat}
    (h : ids = List.range' i len) : ∀ j ∈ ids, i ≤ j ∧ j < i + len := by
  subst h
  intro j hj
  rw [List.mem_range'] at hj
  omega

/-! ## The connection reconciler settles the desired connection set -/

theorem connFields_mkConnRow (id : Nat) (c : Connection) :
    connFields (mkConnRow id c) = c := rfl

theorem updateConnections_perm (view : Database) (spec : Stitch)
    (hnd : (view.connections.map (fun r => r.ID)).Nodup)
    (hlt : ∀ r ∈ view.connections, r.ID < view.nextID) :
    ((updateConnections view spec).1.connections.map connFields).Perm
      spec.connections := by
  unfold updateConnections
  set res := hashJoin (fun c => c) connFields spec.connections view.connections
    with hres
  set newPairs := allocRows blankConnRow view.nextID res.2.1 with hnew
  set tbl₁ := eraseEach view.connections res.2.2 with htbl₁
  have hpartR := hashJoin_partition_right (fun c : Connection => c) connFields
    spec.connections view.connections
  have hpartL := hashJoin_partition_left (fun c : Connection => c) connFields
    spec.connections view.connections
  have htbl₁perm : tbl₁.Perm (res.1.map Prod.snd) := by
    refine eraseEach_perm ?_
    exact hpartR.symm.trans List.perm_append_comm
  have hids₁ : (tbl₁.map (fun r => r.ID)).Nodup :=
    ((eraseEach_sublist res.2.2 view.connections).map _).nodup hnd
  have hlt₁ : ∀ r ∈ tbl₁, r.ID < view.nextID := fun r hr =>
    hlt r (List.Sublist.subset (eraseEach_sublist res.2.2 view.connections) hr)
  have hnewids : ((newPairs.map Prod.snd).map (fun r => r.ID))
      = List.range' view.nextID res.2.1.length :=
    allocRows_snd_ids blankConnRow _ (fun j => rfl) view.nextID res.2.1
  have hnd₂ : (((tbl₁ ++ newPairs.map Prod.snd).map (fun r => r.ID))).Nodup := by
    refine nodup_ids_append _ hids₁ hlt₁ ?_ ?_
    · rw [hnewids]
      exact List.nodup_range' _ _
    · intro x hx
      have := mem_range'_ids hnewids x.ID (List.mem_map_of_mem _ hx)
      omega
  have hperm₂ : (tbl₁ ++ newPairs.map Prod.snd).Perm
      ((res.1 ++ newPairs).map Prod.snd ++ []) := by
    rw [List.map_append, List.append_nil]
    exact htbl₁perm.append_right _
  have hfold := commitFold_perm (fun r : ConnectionRow => r.ID)
    (fun pr => mkConnRow pr.2.ID pr.1) (fun pr => rfl)
    (res.1 ++ newPairs) (tbl₁ ++ newPairs.map Prod.snd) [] hnd₂ hperm₂
  rw [List.append_nil] at hfold
  refine ((hfold.map connFields).trans ?_)
  rw [show ((res.1 ++ newPairs).map
        (fun pr => mkConnRow pr.2.ID pr.1)).map connFields
      = (res.1 ++ newPairs).map Prod.fst from by
    rw [List.map_map]
    exact List.map_congr_left (fun pr _ => rfl)]
  rw [List.map_append, allocRows_fst]
  exact hpartL

/-- C6: after updateConnections the connection table holds exactly the
desired connection set of the specification: the multiset of field tuples
equals the desired multiset, every view row whose tuple appears nowhere in
the desired set is gone, and every desired connection is carried by some
row. -/
theorem claim6_connection_sync (view : Database) (spec : Stitch)
    (hwf : wellFormed view) :
    (((updateConnections view spec).1.connections.map connFields).Perm
        spec.connections)
    ∧ (∀ r ∈ view.connections, connFields r ∉ spec.connections →
        r ∉ (updateConnections view spec).1.connections)
    ∧ (∀ c ∈ spec.connections,
        ∃ row ∈ (updateConnections view spec).1.connections,
          connFields row = c) := by
  obtain ⟨h₁, h₂, _⟩ := hwf
  have hperm := updateConnections_perm view spec h₁ h₂
  refine ⟨hperm, ?_, ?_⟩
  · intro r _ hnot hmem
    exact hnot (hperm.subset (List.mem_map_of_mem connFields hmem))
  · intro c hc
    have : c ∈ (updateConnections view spec).1.connections.map connFields :=
      hperm.symm.subset hc
    rw [List.mem_map] at this
    rcases this with ⟨row, hrow, hEq⟩
    exact ⟨row, hrow, hEq⟩

/-- Witness for C6 at a concrete view (one stale row) and specification. -/
theorem claim6_witness :
    ((updateConnections ⟨1, [⟨0, "a", "b", 1, 2⟩], [], []⟩
        ⟨[⟨"x", "y", 3, 4⟩], [], [], []⟩).1.connections.map connFields).Perm
      [⟨"x", "y", 3, 4⟩] :=
  (claim6_connection_sync ⟨1, [⟨0, "a", "b", 1, 2⟩], [], []⟩
    ⟨[⟨"x", "y", 3, 4⟩], [], [], []⟩ (by decide)).1

theorem countP_map_const {α β : Type} (l : List α) (c : β) (p : β → Bool) :
    (l.map (fun _ => c)).countP p = if p c then l.length else 0 := by
  induction l with
  | nil => simp
  | cons x l ih =>
    rw [List.map_cons, List.countP_cons, ih]
    by_cases hp : p c <;> simp [hp]

theorem allocRows_length {π ρ : Type} (blank : Nat → ρ) (i : Nat) (cs : List π) :
    (allocRows blank i cs).length = cs.length := by
  rw [show cs.length = ((allocRows blank i cs).map Prod.fst).length from by
    rw [allocRows_fst], List.length_map]

/-! ## The container reconciler settles the desired container set -/

theorem containerFields_mkContainerRow (id : Nat) (d : Container) :
    containerFields (mkContainerRow id d) = desiredContainerFields d := rfl

theorem updateContainers_perm (view : Database) (spec : Stitch)
    (hnd : (view.containers.map (fun r => r.ID)).Nodup)
    (hlt : ∀ r ∈ view.containers, r.ID < view.nextID) :
    ((updateContainers view spec).1.containers.map containerFields).Perm
      ((queryContainers spec).map desiredContainerFields) := by
  unfold updateContainers
  set res := scoredMatch score (queryContainers spec) view.containers with hres
  set newPairs := allocRows blankContainerRow view.nextID res.2.1 with hnew
  set tbl₁ := eraseEach view.containers res.2.2 with htbl₁
  have hpart := scoredMatch_spec score (queryContainers spec) view.containers
  have htbl₁perm : tbl₁.Perm (res.1.map Prod.snd) := by
    refine eraseEach_perm ?_
    exact hpart.2.1.symm.trans List.perm_append_comm
  have hids₁ : (tbl₁.map (fun r => r.ID)).Nodup :=
    ((eraseEach_sublist res.2.2 view.containers).map _).nodup hnd
  have hlt₁ : ∀ r ∈ tbl₁, r.ID < view.nextID := fun r hr =>
    hlt r (List.Sublist.subset (eraseEach_sublist res.2.2 view.containers) hr)
  have hnewids : ((newPairs.map Prod.snd).map (fun r => r.ID))
      = List.range' view.nextID res.2.1.length :=
    allocRows_snd_ids blankContainerRow _ (fun j => rfl) view.nextID res.2.1
  have hnd₂ : (((tbl₁ ++ newPairs.map Prod.snd).map (fun r => r.ID))).Nodup := by
    refine nodup_ids_append _ hids₁ hlt₁ ?_ ?_
    · rw [hnewids]
      exact List.nodup_range' _ _
    · intro x hx
      have := mem_range'_ids hnewids x.ID (List.mem_map_of_mem _ hx)
      omega
  have hperm₂ : (tbl₁ ++ newPairs.map Prod.snd).Perm
      ((res.1 ++ newPairs).map Prod.snd ++ []) := by
    rw [List.map_append, List.append_nil]
    exact htbl₁perm.append_right _
  have hfold := commitFold_perm (fun r : ContainerRow => r.ID)
    (fun pr => mkContainerRow pr.2.ID pr.1) (fun pr => rfl)
    (res.1 ++ newPairs) (tbl₁ ++ newPairs.map Prod.snd) [] hnd₂ hperm₂
  rw [List.append_nil] at hfold
  refine ((hfold.map containerFields).trans ?_)
  rw [show ((res.1 ++ newPairs).map
        (fun pr => mkContainerRow pr.2.ID pr.1)).map containerFields
      = ((res.1 ++ newPairs).map Prod.fst).map desiredContainerFields from by
    rw [List.map_map, List.map_map]
    exact List.map_congr_left (fun pr _ => rfl)]
  refine List.Perm.map desiredContainerFields ?_
  rw [List.map_append, allocRows_fst]
  exact hpart.1

/-- C8: updateContainers commits, for every matched pair and every freshly
inserted row, the desired container's Command, Image and Env together with
its lexicographically sorted Labels, removes exactly the unmatched view
rows, and inserts exactly the unmatched desired containers, so the final
container table carries exactly the desired field values; on the
spec's example (view row with Labels a b, desired with Labels a c,
same Image, Command and Env) the two are paired and updated in place with
the sorted desired labels, with a single commit and no insert or remove. -/
theorem claim8_container_sync (view : Database) (spec : Stitch)
    (hwf : wellFormed view) :
    (((updateContainers view spec).1.containers.map containerFields).Perm
        ((queryContainers spec).map desiredContainerFields))
    ∧ ((updateContainers view spec).2.countP (fun op => op.kind == OpKind.insert)
        = (scoredMatch score (queryContainers spec) view.containers).2.1.length)
    ∧ ((updateContainers view spec).2.countP (fun op => op.kind == OpKind.remove)
        = (scoredMatch score (queryContainers spec) view.containers).2.2.length)
    ∧ updateContainers
          ⟨1, [], [], [⟨0, [], "nginx", [], ["a", "b"]⟩]⟩
          ⟨[], [], [⟨1, [], "nginx", []⟩], [("a", [1]), ("c", [1])]⟩
        = (⟨1, [], [], [⟨0, [], "nginx", [], ["a", "c"]⟩]⟩,
           [⟨EntityKind.container, OpKind.commit⟩]) := by
  obtain ⟨_, _, _, _, h₅, h₆⟩ := hwf
  refine ⟨updateContainers_perm view spec h₅ h₆, ?_, ?_, by decide⟩
  · rw [show (updateContainers view spec).2
        = (scoredMatch score (queryContainers spec) view.containers).2.2.map
            (fun _ => ⟨EntityKind.container, OpKind.remove⟩)
          ++ (scoredMatch score (queryContainers spec) view.containers).2.1.map
            (fun _ => ⟨EntityKind.container, OpKind.insert⟩)
          ++ ((scoredMatch score (queryContainers spec) view.containers).1
              ++ allocRows blankContainerRow view.nextID
                (scoredMatch score (queryContainers spec) view.containers).2.1).map
            (fun _ => ⟨EntityKind.container, OpKind.commit⟩) from rfl]
    rw [List.countP_append, List.countP_append, countP_map_const,
      countP_map_const, countP_map_const]
    simp
  · rw [show (updateContainers view spec).2
        = (scoredMatch score (queryContainers spec) view.containers).2.2.map
            (fun _ => ⟨EntityKind.container, OpKind.remove⟩)
          ++ (scoredMatch score (queryContainers spec) view.containers).2.1.map
            (fun _ => ⟨EntityKind.container, OpKind.insert⟩)
          ++ ((scoredMatch score (queryContainers spec) view.containers).1
              ++ allocRows blankContainerRow view.nextID
                (scoredMatch score (queryContainers spec) view.containers).2.1).map
            (fun _ => ⟨EntityKind.container, OpKind.commit⟩) from rfl]
    rw [List.countP_append, List.countP_append, countP_map_const,
      countP_map_const, countP_map_const]
    simp

/-- Witness for C8: the general multiset statement applied at the
concrete nginx example. -/
theorem claim8_witness :
    ((updateContainers ⟨1, [], [], [⟨0, [], "nginx", [], ["a", "b"]⟩]⟩
        ⟨[], [], [⟨1, [], "nginx", []⟩],
          [("a", [1]), ("c", [1])]⟩).1.containers.map containerFields).Perm
      ((queryContainers ⟨[], [], [⟨1, [], "nginx", []⟩],
          [("a", [1]), ("c", [1])]⟩).map desiredContainerFields) :=
  (claim8_container_sync ⟨1, [], [], [⟨0, [], "nginx", [], ["a", "b"]⟩]⟩
    ⟨[], [], [⟨1, [], "nginx", []⟩], [("a", [1]), ("c", [1])]⟩ (by decide)).1

/-! ## Order invariance of the placement reconciliation -/

theorem filterExcess_congr {β κ : Type} [DecidableEq κ] (kr : β → κ) :
    ∀ (r : List β) (c₁ c₂ : κ → Nat), (∀ x ∈ r, c₁ (kr x) = c₂ (kr x)) →
      filterExcess kr c₁ r = filterExcess kr c₂ r := by
  intro r
  induction r with
  | nil =>
    intro c₁ c₂ _
    rfl
  | cons b r ih =>
    intro c₁ c₂ h
    have hb := h b (List.mem_cons_self b r)
    rw [filterExcess, filterExcess]
    by_cases hc : 0 < c₁ (kr b)
    · rw [if_pos hc, if_pos (hb ▸ hc)]
      refine ih _ _ ?_
      intro x hx
      by_cases hk : kr x = kr b
      · rw [if_pos hk, if_pos hk, h x (List.mem_cons_of_mem b hx)]
      · rw [if_neg hk, if_neg hk]
        exact h x (List.mem_cons_of_mem b hx)
    · rw [if_neg hc, if_neg (hb ▸ hc)]
      exact congrArg (b :: ·) (ih c₁ c₂ (fun x hx => h x (List.mem_cons_of_mem b hx)))

theorem filterExcess_zero {β κ : Type} [DecidableEq κ] (kr : β → κ) :
    ∀ (r : List β) (c : κ → Nat), (∀ x ∈ r, c (kr x) = 0) →
      filterExcess kr c r = r := by
  intro r
  induction r with
  | nil =>
    intro c _
    rfl
  | cons b r ih =>
    intro c h
    rw [filterExcess, if_neg (by rw [h b (List.mem_cons_self b r)]; omega)]
    exact congrArg (b :: ·) (ih c (fun x hx => h x (List.mem_cons_of_mem b hx)))

theorem filterExcess_consume {β κ : Type} [DecidableEq κ] (kr : β → κ) :
    ∀ (pre : List β) (b : β) (post : List β) (c₁ c₂ : κ → Nat),
      (∀ k, k ≠ kr b → c₁ k = c₂ k) → c₁ (kr b) = c₂ (kr b) + 1 →
      (∀ x ∈ pre, kr x ≠ kr b) →
      filterExcess kr c₁ (pre ++ b :: post) = filterExcess kr c₂ (pre ++ post) := by
  intro pre
  induction pre with
  | nil =>
    intro b post c₁ c₂ hne hb hpre
    rw [List.nil_append, List.nil_append, filterExcess, if_pos (by omega)]
    refine filterExcess_congr kr post _ _ ?_
    intro x _
    by_cases hk : kr x = kr b
    · rw [if_pos hk, hk]
      omega
    · rw [if_neg hk]
      exact hne _ hk
  | cons p pre ih =>
    intro b post c₁ c₂ hne hb hpre
    have hpb : kr p ≠ kr b := hpre p (List.mem_cons_self p pre)
    have hcp : c₁ (kr p) = c₂ (kr p) := hne _ hpb
    rw [List.cons_append, List.cons_append, filterExcess, filterExcess]
    by_cases hc : 0 < c₁ (kr p)
    · rw [if_pos hc, if_pos (by omega)]
      refine ih b post _ _ ?_ ?_ (fun x hx => hpre x (List.mem_cons_of_mem p hx))
      · intro k hk
        by_cases hkp : k = kr p
        · rw [if_pos hkp, if_pos hkp, hne k hk]
        · rw [if_neg hkp, if_neg hkp]
          exact hne k hk
      · rw [if_neg hpb.symm, if_neg hpb.symm]
        exact hb
    · rw [if_neg hc, if_neg (by omega)]
      exact congrArg (p :: ·)
        (ih b post c₁ c₂ hne hb (fun x hx => hpre x (List.mem_cons_of_mem p hx)))

theorem hashJoin_ro_eq {α β κ : Type} [DecidableEq κ] (kl : α → κ) (kr : β → κ) :
    ∀ (l : List α) (r : List β),
      (hashJoin kl kr l r).2.2
        = filterExcess kr (fun k => l.countP (fun a => decide (kl a = k))) r := by
  intro l
  induction l with
  | nil =>
    intro r
    rw [show hashJoin kl kr ([] : List α) r = ([], [], r) from rfl]
    refine (filterExcess_zero kr r _ ?_).symm
    intro x _
    simp
  | cons a l ih =>
    intro r
    rw [hashJoin_cons]
    cases hx : extractFirst (fun b => decide (kr b = kl a)) r with
    | some br =>
      obtain ⟨b, r₁⟩ := br
      obtain ⟨hpb, pre, post, hr, hr₁, hpre⟩ := extractFirst_some hx
      have hkb : kr b = kl a := by simpa using hpb
      rw [ih r₁, hr, hr₁]
      symm
      refine filterExcess_consume kr pre b post _ _ ?_ ?_ ?_
      · intro k hk
        rw [List.countP_cons]
        rw [if_neg (by
          simp only [decide_eq_true_eq]
          intro h
          exact hk (by rw [← h, hkb]))]
        omega
      · rw [List.countP_cons]
        rw [if_pos (by simp [hkb])]
      · intro x hxp
        have := hpre x hxp
        simp only [decide_eq_false_iff_not] at this
        rw [hkb]
        exact this
    | none =>
      rw [ih r]
      refine filterExcess_congr kr r _ _ ?_
      intro x hxr
      have hz := extractFirst_none.mp hx x hxr
      simp only [decide_eq_false_iff_not] at hz
      rw [List.countP_cons, if_neg (by
        simp only [decide_eq_true_eq]
        intro h
        exact hz h.symm)]
      omega

theorem hashJoin_lo_count {α β κ : Type} [DecidableEq κ] [DecidableEq α]
    (kl : α → κ) (kr : β → κ) (hinj : Function.Injective kl) (a : α) :
    ∀ (l : List α) (r : List β),
      (hashJoin kl kr l r).2.1.count a
        = l.count a - r.countP (fun b => decide (kr b = kl a)) := by
  intro l
  induction l with
  | nil =>
    intro r
    simp [hashJoin]
  | cons a' l ih =>
    intro r
    rw [hashJoin_cons]
    cases hx : extractFirst (fun b => decide (kr b = kl a')) r with
    | some br =>
      obtain ⟨b, r₁⟩ := br
      have hkey : kr b = kl a' := by simpa using (extractFirst_some hx).1
      have hcnt := (extractFirst_some_perm hx).countP_eq
        (fun x => decide (kr x = kl a))
      rw [List.countP_cons] at hcnt
      rw [ih r₁, hcnt]
      by_cases haa : a' = a
      · subst haa
        rw [List.count_cons_self, if_pos (by simp [hkey])]
        omega
      · rw [List.count_cons_of_ne (fun h => haa h.symm),
          if_neg (by
            simp only [decide_eq_true_eq]
            intro h
            exact haa (hinj (hkey.symm.trans h)))]
        omega
    | none =>
      have hzero : r.countP (fun x => decide (kr x = kl a')) = 0 := by
        rw [List.countP_eq_zero]
        intro x hx₂
        simpa using extractFirst_none.mp hx x hx₂
      by_cases haa : a' = a
      · subst haa
        rw [List.count_cons_self, List.count_cons_self, ih r, hzero]
        omega
      · rw [List.count_cons_of_ne (fun h => haa h.symm),
          List.count_cons_of_ne (fun h => haa h.symm), ih r]
    
theorem mkPlacementRows_fields :
    ∀ (i : Nat) (ps : List Placement),
      (mkPlacementRows i ps).map placementFields = ps := by
  intro i ps
  induction ps generalizing i with
  | nil => rfl
  | cons p ps ih =>
    rw [mkPlacementRows, List.map_cons, ih]
    rfl

theorem commit_append_fresh {ρ : Type} [DecidableEq ρ] (gid : ρ → Nat)
    {tbl : List ρ} {bk r : ρ}
    (h : ∀ x ∈ tbl, gid x ≠ gid r) (hb : gid bk = gid r) :
    commitById gid (tbl ++ [bk]) r = tbl ++ [r] := by
  show (tbl ++ [bk]).map (fun x => if gid x = gid r then r else x) = tbl ++ [r]
  rw [List.map_append]
  congr 1
  · exact commitById_absent gid h
  · rw [List.map_singleton, if_pos hb]

theorem insertCommitPlacements_eq :
    ∀ (ps : List Placement) (i : Nat) (tbl : List PlacementRow),
      (∀ x ∈ tbl, x.ID < i) →
      insertCommitPlacements i ps tbl
        = (tbl ++ mkPlacementRows i ps, i + ps.length) := by
  intro ps
  induction ps with
  | nil =>
    intro i tbl _
    simp [insertCommitPlacements, mkPlacementRows]
  | cons p ps ih =>
    intro i tbl h
    rw [insertCommitPlacements]
    rw [@commit_append_fresh PlacementRow _ (fun r => r.ID) tbl
      ⟨i, "", PlacementRule.portRule 0⟩ ⟨i, p.TargetLabel, p.Rule⟩
      (fun x hx => by
        have := h x hx
        show x.ID ≠ i
        omega) rfl]
    rw [ih (i + 1) (tbl ++ [(⟨i, p.TargetLabel, p.Rule⟩ : PlacementRow)]) (by
      intro x hx
      rcases List.mem_append.mp hx with hx | hx
      · have := h x hx
        omega
      · rw [List.mem_singleton.mp hx]
        show i < i + 1
        omega)]
    rw [Prod.ext_iff]
    constructor
    · rw [mkPlacementRows, List.append_assoc, List.singleton_append]
    · simp only [List.length_cons]
      omega

theorem updatePlacementsWith_placements (d : List Placement) (view : Database)
    (hlt : ∀ x ∈ view.placements, x.ID < view.nextID) :
    (updatePlacementsWith d view).1.placements
      = eraseEach
          (view.placements ++ mkPlacementRows view.nextID
            (hashJoin (fun p => p) placementFields
              (d ++ makeConnectionPlacements view.connections)
              view.placements).2.1)
          (hashJoin (fun p => p) placementFields
            (d ++ makeConnectionPlacements view.connections)
            view.placements).2.2 := by
  have h0 : (updatePlacementsWith d view).1.placements
      = eraseEach
          (insertCommitPlacements view.nextID
            (hashJoin (fun p => p) placementFields
              (d ++ makeConnectionPlacements view.connections)
              view.placements).2.1 view.placements).1
          (hashJoin (fun p => p) placementFields
            (d ++ makeConnectionPlacements view.connections)
            view.placements).2.2 := rfl
  rw [h0, insertCommitPlacements_eq _ _ _ hlt]

theorem updatePlacementsWith_fields_perm (d : List Placement) (view : Database)
    (hlt : ∀ x ∈ view.placements, x.ID < view.nextID) :
    ((updatePlacementsWith d view).1.placements.map placementFields).Perm
      ((eraseEach view.placements
          (hashJoin (fun p => p) placementFields
            (d ++ makeConnectionPlacements view.connections)
            view.placements).2.2).map placementFields
        ++ (hashJoin (fun p => p) placementFields
            (d ++ makeConnectionPlacements view.connections)
            view.placements).2.1) := by
  rw [updatePlacementsWith_placements d view hlt]
  set res := hashJoin (fun p => p) placementFields
    (d ++ makeConnectionPlacements view.connections) view.placements with hres
  have hle : ∀ x, res.2.2.count x ≤ view.placements.count x := by
    intro x
    have hp := (hashJoin_partition_right (fun p : Placement => p) placementFields
      (d ++ makeConnectionPlacements view.connections) view.placements).count_eq x
    rw [List.count_append] at hp
    rw [hres]
    omega
  have hle₂ : ∀ x, res.2.2.count x
      ≤ (view.placements ++ mkPlacementRows view.nextID res.2.1).count x := by
    intro x
    rw [List.count_append]
    have := hle x
    omega
  have hfin : (eraseEach
      (view.placements ++ mkPlacementRows view.nextID res.2.1) res.2.2).Perm
      (eraseEach view.placements res.2.2
        ++ mkPlacementRows view.nextID res.2.1) := by
    rw [List.perm_iff_count]
    intro x
    rw [eraseEach_count _ _ hle₂ x, List.count_append, List.count_append,
      eraseEach_count _ _ hle x]
    have := hle x
    omega
  refine (hfin.map placementFields).trans ?_
  rw [List.map_append, mkPlacementRows_fields]

/-- C10: the observable placement table after updatePlacements does not
depend on the enumeration order of the deduplicated spec-derived
placement set: running the reconciliation with any permutation of the
dedup output yields the same multiset of (TargetLabel, Rule) field values
in the view. -/
theorem claim10_dedup_order_invariance (view : Database)
    (sps : List StitchPlacement) (dl : List Placement)
    (hwf : wellFormed view) (hperm : dl.Perm (toDBPlacements sps)) :
    ((updatePlacementsWith dl view).1.placements.map placementFields).Perm
      ((updatePlacementsWith (toDBPlacements sps) view).1.placements.map
        placementFields) := by
  obtain ⟨_, _, h₃, h₄, _, _⟩ := hwf
  have hd : (dl ++ makeConnectionPlacements view.connections).Perm
      (toDBPlacements sps ++ makeConnectionPlacements view.connections) :=
    hperm.append_right _
  have hro : (hashJoin (fun p => p) placementFields
        (dl ++ makeConnectionPlacements view.connections) view.placements).2.2
      = (hashJoin (fun p => p) placementFields
        (toDBPlacements sps ++ makeConnectionPlacements view.connections)
        view.placements).2.2 := by
    rw [hashJoin_ro_eq, hashJoin_ro_eq]
    refine filterExcess_congr placementFields view.placements _ _ ?_
    intro x _
    exact hd.countP_eq _
  have hlo : (hashJoin (fun p => p) placementFields
        (dl ++ makeConnectionPlacements view.connections) view.placements).2.1.Perm
      (hashJoin (fun p => p) placementFields
        (toDBPlacements sps ++ makeConnectionPlacements view.connections)
        view.placements).2.1 := by
    rw [List.perm_iff_count]
    intro a
    rw [hashJoin_lo_count _ placementFields (fun x y h => h) a,
      hashJoin_lo_count _ placementFields (fun x y h => h) a,
      hd.count_eq a]
  have hA := updatePlacementsWith_fields_perm dl view h₄
  have hB := updatePlacementsWith_fields_perm (toDBPlacements sps) view h₄
  rw [hro] at hA
  exact hA.trans ((List.Perm.append_left _ hlo).trans hB.symm)

/-- Witness for C10 at a concrete view and a concrete permutation of the
dedup output. -/
theorem claim10_witness :
    ((updatePlacementsWith
        [⟨"t", .labelRule "y" true⟩, ⟨"t", .labelRule "x" true⟩]
        ⟨0, [], [], []⟩).1.placements.map placementFields).Perm
      ((updatePlacementsWith
        (toDBPlacements [⟨"t", true, ["x", "y"], []⟩])
        ⟨0, [], [], []⟩).1.placements.map placementFields) :=
  claim10_dedup_order_invariance ⟨0, [], [], []⟩ [⟨"t", true, ["x", "y"], []⟩]
    [⟨"t", .labelRule "y" true⟩, ⟨"t", .labelRule "x" true⟩]
    (by decide) (by decide)

/-! ## Second-pass stability of the reconcilers -/

theorem eraseEach_nil {ρ : Type} [DecidableEq ρ] (tbl : List ρ) :
    eraseEach tbl [] = tbl := rfl

theorem allocRows_nil {π ρ : Type} (blank : Nat → ρ) (i : Nat) :
    allocRows blank i ([] : List π) = [] := rfl

theorem commitById_self {ρ : Type} (gid : ρ → Nat) {tbl : List ρ} {r : ρ}
    (hnd : (tbl.map gid).Nodup) (hr : r ∈ tbl) : commitById gid tbl r = tbl := by
  show tbl.map (fun x => if gid x = gid r then r else x) = tbl
  conv_rhs => rw [← List.map_id tbl]
  refine List.map_congr_left ?_
  intro x hx
  by_cases h : gid x = gid r
  · rw [if_pos h]
    exact (List.inj_on_of_nodup_map hnd hx hr h).symm
  · rw [if_neg h]
    rfl

theorem commitFold_self {π ρ : Type} (gid : ρ → Nat) (mk : π × ρ → ρ) :
    ∀ (ps : List (π × ρ)) (tbl : List ρ), (tbl.map gid).Nodup →
      (∀ pr ∈ ps, mk pr ∈ tbl) →
      ps.foldl (fun t pr => commitById gid t (mk pr)) tbl = tbl := by
  intro ps
  induction ps with
  | nil =>
    intro tbl _ _
    rfl
  | cons p ps ih =>
    intro tbl hnd hmem
    rw [List.foldl_cons, commitById_self gid hnd (hmem p (List.mem_cons_self p ps))]
    exact ih tbl hnd (fun pr hpr => hmem pr (List.mem_cons_of_mem p hpr))

theorem counts_of_fields_perm {ρ σ : Type} [DecidableEq σ] {f : ρ → σ}
    {tbl : List ρ} {des : List σ} (hperm : (tbl.map f).Perm des) :
    ∀ k : σ, des.countP (fun a => decide (a = k))
      = tbl.countP (fun b => decide (f b = k)) := by
  intro k
  rw [← hperm.countP_eq (fun a => decide (a = k)), List.countP_map]
  rfl

theorem updateConnections_noop (view : Database) (spec : Stitch)
    (hnd : (view.connections.map (fun r => r.ID)).Nodup)
    (hcounts : ∀ k : Connection,
      spec.connections.countP (fun a => decide (a = k))
        = view.connections.countP (fun b => decide (connFields b = k))) :
    (updateConnections view spec).1 = view
      ∧ ∀ op ∈ (updateConnections view spec).2, op.kind = OpKind.commit := by
  have hm := hashJoin_all_matched (fun c : Connection => c) connFields hcounts
  have hkey := hashJoin_pairs_key (fun c : Connection => c) connFields
    spec.connections view.connections
  have hpartR := hashJoin_partition_right (fun c : Connection => c) connFields
    spec.connections view.connections
  have hmk : ∀ pr ∈ (hashJoin (fun c : Connection => c) connFields
      spec.connections view.connections).1,
      mkConnRow pr.2.ID pr.1 ∈ view.connections := by
    intro pr hpr
    have h₁ : connFields pr.2 = pr.1 := hkey pr hpr
    have h₂ : mkConnRow pr.2.ID pr.1 = pr.2 := by
      rw [← h₁]
      rfl
    rw [h₂]
    refine hpartR.subset ?_
    rw [List.mem_append]
    exact Or.inl (List.mem_map_of_mem Prod.snd hpr)
  have e1 : updateConnections view spec
      = ({ view with
            nextID := view.nextID
              + (hashJoin (fun c : Connection => c) connFields
                  spec.connections view.connections).2.1.length
            connections :=
              ((hashJoin (fun c : Connection => c) connFields
                  spec.connections view.connections).1
                ++ allocRows blankConnRow view.nextID
                  (hashJoin (fun c : Connection => c) connFields
                    spec.connections view.connections).2.1).foldl
                (fun t pr => commitById (fun r => r.ID) t (mkConnRow pr.2.ID pr.1))
                (eraseEach view.connections
                    (hashJoin (fun c : Connection => c) connFields
                      spec.connections view.connections).2.2
                  ++ (allocRows blankConnRow view.nextID
                      (hashJoin (fun c : Connection => c) connFields
                        spec.connections view.connections).2.1).map Prod.snd) },
         (hashJoin (fun c : Connection => c) connFields
             spec.connections view.connections).2.2.map
            (fun _ => ⟨EntityKind.conn, OpKind.remove⟩)
          ++ (hashJoin (fun c : Connection => c) connFields
              spec.connections view.connections).2.1.map
            (fun _ => ⟨EntityKind.conn, OpKind.insert⟩)
          ++ ((hashJoin (fun c : Connection => c) connFields
              spec.connections view.connections).1
            ++ allocRows blankConnRow view.nextID
              (hashJoin (fun c : Connection => c) connFields
                spec.connections view.connections).2.1).map
            (fun _ => ⟨EntityKind.conn, OpKind.commit⟩)) := rfl
  rw [e1, hm.1, hm.2]
  rw [allocRows_nil, eraseEach_nil]
  constructor
  · rw [List.map_nil, List.append_nil, List.append_nil,
      commitFold_self (fun r : ConnectionRow => r.ID)
        (fun pr => mkConnRow pr.2.ID pr.1) _ _ hnd hmk,
      List.length_nil, Nat.add_zero]
  · intro op hop
    simp only [List.map_nil, List.nil_append, List.append_nil,
      List.mem_map] at hop
    rcases hop with ⟨x, _, rfl⟩
    rfl

theorem updateConnections_post_counts (view : Database) (spec : Stitch)
    (hnd : (view.connections.map (fun r => r.ID)).Nodup)
    (hlt : ∀ r ∈ view.connections, r.ID < view.nextID) :
    ∀ k : Connection, spec.connections.countP (fun a => decide (a = k))
      = (updateConnections view spec).1.connections.countP
          (fun b => decide (connFields b = k)) :=
  counts_of_fields_perm (updateConnections_perm view spec hnd hlt)

theorem updateConnections_wf (view : Database) (spec : Stitch)
    (hwf : wellFormed view) : wellFormed (updateConnections view spec).1 := by
  obtain ⟨h₁, h₂, h₃, h₄, h₅, h₆⟩ := hwf
  set res := hashJoin (fun c : Connection => c) connFields
    spec.connections view.connections with hres
  have e1 : (updateConnections view spec).1.connections
      = (res.1 ++ allocRows blankConnRow view.nextID res.2.1).foldl
          (fun t pr => commitById (fun r => r.ID) t (mkConnRow pr.2.ID pr.1))
          (eraseEach view.connections res.2.2
            ++ (allocRows blankConnRow view.nextID res.2.1).map Prod.snd) := rfl
  have e2 : (updateConnections view spec).1.nextID
      = view.nextID + res.2.1.length := rfl
  have e3 : (updateConnections view spec).1.placements = view.placements := rfl
  have e4 : (updateConnections view spec).1.containers = view.containers := rfl
  have hids : ((updateConnections view spec).1.connections.map (fun r => r.ID))
      = (eraseEach view.connections res.2.2).map (fun r => r.ID)
        ++ List.range' view.nextID res.2.1.length := by
    rw [e1, commitFold_map_gid (fun r : ConnectionRow => r.ID)
        (fun pr => mkConnRow pr.2.ID pr.1) (fun pr => rfl),
      List.map_append,
      allocRows_snd_ids blankConnRow _ (fun j => rfl) view.nextID res.2.1]
  have hsub := eraseEach_sublist res.2.2 view.connections
  refine ⟨?_, ?_, ?_, ?_, ?_, ?_⟩
  · rw [hids, List.nodup_append]
    refine ⟨(hsub.map _).nodup h₁, List.nodup_range' _ _, ?_⟩
    intro a ha hb
    rw [List.mem_map] at ha
    rcases ha with ⟨x, hx, rfl⟩
    have h := h₂ x (hsub.subset hx)
    have := List.mem_range'.mp hb
    omega
  · intro r hr
    rw [e2]
    have : r.ID ∈ ((updateConnections view spec).1.connections.map
        (fun r => r.ID)) := List.mem_map_of_mem _ hr
    rw [hids, List.mem_append] at this
    rcases this with h | h
    · rw [List.mem_map] at h
      rcases h with ⟨x, hx, hEq⟩
      have := h₂ x (hsub.subset hx)
      omega
    · have := List.mem_range'.mp h
      omega
  · rw [e3]
    exact h₃
  · rw [e3, e2]
    intro r hr
    have := h₄ r hr
    omega
  · rw [e4]
    exact h₅
  · rw [e4, e2]
    intro r hr
    have := h₆ r hr
    omega

theorem insertCommitPlacements_nil (i : Nat) (tbl : List PlacementRow) :
    insertCommitPlacements i [] tbl = (tbl, i) := rfl

theorem mkPlacementRows_ids :
    ∀ (i : Nat) (ps : List Placement),
      (mkPlacementRows i ps).map (fun r => r.ID) = List.range' i ps.length := by
  intro i ps
  induction ps generalizing i with
  | nil => rfl
  | cons p ps ih =>
    rw [mkPlacementRows, List.map_cons, List.length_cons, List.range'_succ, ih]

theorem updatePlacementsWith_frame (d : List Placement) (view : Database) :
    (updatePlacementsWith d view).1.connections = view.connections
      ∧ (updatePlacementsWith d view).1.containers = view.containers :=
  ⟨rfl, rfl⟩

theorem updatePlacementsWith_fields_desired (d : List Placement) (view : Database)
    (hlt : ∀ x ∈ view.placements, x.ID < view.nextID) :
    ((updatePlacementsWith d view).1.placements.map placementFields).Perm
      (d ++ makeConnectionPlacements view.connections) := by
  refine (updatePlacementsWith_fields_perm d view hlt).trans ?_
  set res := hashJoin (fun p => p) placementFields
    (d ++ makeConnectionPlacements view.connections) view.placements with hres
  have h₂ : (eraseEach view.placements res.2.2).Perm (res.1.map Prod.snd) := by
    refine eraseEach_perm ?_
    rw [hres]
    exact (hashJoin_partition_right (fun p : Placement => p) placementFields
      (d ++ makeConnectionPlacements view.connections)
      view.placements).symm.trans List.perm_append_comm
  have h₃ : (res.1.map Prod.snd).map placementFields = res.1.map Prod.fst := by
    rw [List.map_map]
    refine List.map_congr_left ?_
    intro pr hpr
    rw [hres] at hpr
    exact hashJoin_pairs_key (fun p : Placement => p) placementFields
      (d ++ makeConnectionPlacements view.connections) view.placements pr hpr
  refine ((h₂.map placementFields).append_right res.2.1).trans ?_
  rw [h₃, hres]
  exact hashJoin_partition_left (fun p : Placement => p) placementFields
    (d ++ makeConnectionPlacements view.connections) view.placements

theorem updatePlacementsWith_noop (d : List Placement) (view : Database)
    (hcounts : ∀ k : Placement,
      (d ++ makeConnectionPlacements view.connections).countP
          (fun a => decide (a = k))
        = view.placements.countP (fun b => decide (placementFields b = k))) :
    updatePlacementsWith d view = (view, []) := by
  have hm := hashJoin_all_matched (fun p : Placement => p) placementFields hcounts
  have e1 : updatePlacementsWith d view
      = ({ view with
            nextID := (insertCommitPlacements view.nextID
              (hashJoin (fun p : Placement => p) placementFields
                (d ++ makeConnectionPlacements view.connections)
                view.placements).2.1 view.placements).2
            placements := eraseEach
              (insertCommitPlacements view.nextID
                (hashJoin (fun p : Placement => p) placementFields
                  (d ++ makeConnectionPlacements view.connections)
                  view.placements).2.1 view.placements).1
              (hashJoin (fun p : Placement => p) placementFields
                (d ++ makeConnectionPlacements view.connections)
                view.placements).2.2 },
         (hashJoin (fun p : Placement => p) placementFields
             (d ++ makeConnectionPlacements view.connections)
             view.placements).2.1.flatMap
            (fun _ => [⟨EntityKind.placement, OpKind.insert⟩,
              ⟨EntityKind.placement, OpKind.commit⟩])
          ++ (hashJoin (fun p : Placement => p) placementFields
              (d ++ makeConnectionPlacements view.connections)
              view.placements).2.2.map
            (fun _ => ⟨EntityKind.placement, OpKind.remove⟩)) := rfl
  rw [e1, hm.1, hm.2]
  rfl

theorem updatePlacementsWith_wf (d : List Placement) (view : Database)
    (hwf : wellFormed view) : wellFormed (updatePlacementsWith d view).1 := by
  obtain ⟨h₁, h₂, h₃, h₄, h₅, h₆⟩ := hwf
  set res := hashJoin (fun p : Placement => p) placementFields
    (d ++ makeConnectionPlacements view.connections) view.placements with hres
  have e1 : (updatePlacementsWith d view).1.placements
      = eraseEach (view.placements ++ mkPlacementRows view.nextID res.2.1)
          res.2.2 := by
    rw [← hres] at *
    exact updatePlacementsWith_placements d view h₄
  have e2 : (updatePlacementsWith d view).1.nextID
      = view.nextID + res.2.1.length := by
    have e0 : (updatePlacementsWith d view).1.nextID
        = (insertCommitPlacements view.nextID res.2.1 view.placements).2 := rfl
    rw [e0, insertCommitPlacements_eq _ _ _ h₄]
  have e3 : (updatePlacementsWith d view).1.connections = view.connections := rfl
  have e4 : (updatePlacementsWith d view).1.containers = view.containers := rfl
  have hsub := eraseEach_sublist res.2.2
    (view.placements ++ mkPlacementRows view.nextID res.2.1)
  have hbase : ((view.placements ++ mkPlacementRows view.nextID res.2.1).map
      (fun r => r.ID)).Nodup := by
    refine nodup_ids_append _ h₃ h₄ ?_ ?_
    · rw [mkPlacementRows_ids]
      exact List.nodup_range' _ _
    · intro x hx
      have hx₂ : x.ID ∈ (mkPlacementRows view.nextID res.2.1).map
          (fun r => r.ID) := List.mem_map_of_mem _ hx
      rw [mkPlacementRows_ids] at hx₂
      have := List.mem_range'.mp hx₂
      omega
  have hlt₂ : ∀ x ∈ view.placements ++ mkPlacementRows view.nextID res.2.1,
      x.ID < view.nextID + res.2.1.length := by
    intro x hx
    rcases List.mem_append.mp hx with hx | hx
    · have := h₄ x hx
      omega
    · have hx₂ : x.ID ∈ (mkPlacementRows view.nextID res.2.1).map
        (fun r => r.ID) := List.mem_map_of_mem _ hx
      rw [mkPlacementRows_ids] at hx₂
      have := List.mem_range'.mp hx₂
      omega
  refine ⟨?_, ?_, ?_, ?_, ?_, ?_⟩
  · rw [e3]
    exact h₁
  · rw [e3, e2]
    intro r hr
    have := h₂ r hr
    omega
  · rw [e1]
    exact (hsub.map _).nodup hbase
  · rw [e1, e2]
    intro r hr
    exact hlt₂ r (hsub.subset hr)
  · rw [e4]
    exact h₅
  · rw [e4, e2]
    intro r hr
    have := h₆ r hr
    omega

theorem mem_removeOptions_of_mem {β : Type} [DecidableEq β] {r : List β} {b : β}
    (h : b ∈ r) : (b, r.erase b) ∈ removeOptions r := by
  induction r with
  | nil => cases h
  | cons c r ih =>
    by_cases hc : c = b
    · subst hc
      rw [List.erase_cons_head]
      exact List.mem_cons_self _ _
    · have hb : b ∈ r := by
        rcases List.mem_cons.mp h with h | h
        · exact absurd h.symm hc
        · exact h
      rw [List.erase_cons_tail (by simpa using hc)]
      rw [removeOptions]
      refine List.mem_cons_of_mem _ ?_
      rw [List.mem_map]
      exact ⟨(b, r.erase b), ih hb, rfl⟩

theorem exists_row_pairing {ρ σ : Type} [DecidableEq ρ] [DecidableEq σ]
    (f : ρ → σ) :
    ∀ (des : List σ) (R : List ρ), (R.map f).Perm des →
      ∃ R', R.Perm R' ∧ List.Forall₂ (fun s row => f row = s) des R' := by
  intro des
  induction des with
  | nil =>
    intro R h
    rw [List.perm_nil, List.map_eq_nil_iff] at h
    subst h
    exact ⟨[], List.Perm.refl _, List.Forall₂.nil⟩
  | cons s des ih =>
    intro R h
    have hs : s ∈ R.map f := h.symm.subset (List.mem_cons_self s des)
    rw [List.mem_map] at hs
    rcases hs with ⟨row, hrow, hf⟩
    subst hf
    have hR : (row :: R.erase row).Perm R :=
      (List.cons_perm_iff_perm_erase.mpr ⟨hrow, List.Perm.refl _⟩)
    have hmap : (f row :: des).Perm (f row :: (R.erase row).map f) := by
      refine h.symm.trans ?_
      refine ((hR.symm).map f).trans ?_
      exact List.Perm.refl _
    have h₂ : ((R.erase row).map f).Perm des := (hmap.cons_inv).symm
    obtain ⟨R'', hperm'', hfa⟩ := ih (R.erase row) h₂
    refine ⟨row :: R'', ?_, List.Forall₂.cons rfl hfa⟩
    exact (List.cons_perm_iff_perm_erase.mpr ⟨hrow, hperm''.symm⟩).symm

theorem matchings_perfect {α β : Type} [DecidableEq β] (score : α → β → Int) :
    ∀ (D : List α) (R R' : List β), R.Perm R' →
      List.Forall₂ (fun d b => 0 ≤ score d b) D R' →
      ∃ c ∈ matchings score D R, c.1.length = D.length := by
  intro D
  induction D with
  | nil =>
    intro R R' _ _
    exact ⟨([], [], R), by simp [matchings], rfl⟩
  | cons d D ih =>
    intro R R' hp hf
    cases hf with
    | @cons _ b _ R₀ hdb htail =>
      have hbR : b ∈ R := hp.symm.subset (List.mem_cons_self b R₀)
      have hperm₀ : (R.erase b).Perm R₀ :=
        ((List.cons_perm_iff_perm_erase.mp hp.symm).2).symm
      obtain ⟨c, hc, hlen⟩ := ih (R.erase b) R₀ hperm₀ htail
      refine ⟨((d, b) :: c.1, c.2.1, c.2.2), ?_, by simp [hlen]⟩
      simp only [matchings, List.mem_append, List.mem_flatMap, List.mem_map,
        List.mem_filter]
      refine Or.inl ⟨(b, R.erase b),
        ⟨mem_removeOptions_of_mem hbR, by simpa using hdb⟩, c, hc, rfl⟩

theorem strSliceEqual_refl (l : List String) : StrSliceEqual l l = true := by
  unfold StrSliceEqual
  exact beq_self_eq_true l

theorem strStrMapEqual_refl (m : List (String × String)) :
    StrStrMapEqual m m = true :=
  (strStrMapEqual_iff m m).mpr (fun _ => rfl)

theorem score_nonneg_of_fields {d : Container} {b : ContainerRow}
    (hdb : containerFields b = desiredContainerFields d) : 0 ≤ score d b := by
  have hIm : b.Image = d.Image := congrArg Container.Image hdb
  have hCmd : b.Command = d.Command := congrArg Container.Command hdb
  have hEnv : b.Env = d.Env := congrArg Container.Env hdb
  unfold score
  rw [if_neg (by
    simp only [Bool.or_eq_true, decide_eq_true_eq, Bool.not_eq_true']
    rintro ((h | h) | h)
    · exact h (by rw [hIm])
    · rw [hCmd] at h
      rw [strSliceEqual_refl] at h
      exact Bool.noConfusion h
    · rw [hEnv] at h
      rw [strStrMapEqual_refl] at h
      exact Bool.noConfusion h)]
  exact Int.natCast_nonneg _

theorem scoredMatch_stable (view : Database) (spec : Stitch)
    (hfields : (view.containers.map containerFields).Perm
      ((queryContainers spec).map desiredContainerFields)) :
    (scoredMatch score (queryContainers spec) view.containers).2.1 = []
    ∧ (scoredMatch score (queryContainers spec) view.containers).2.2 = [] := by
  obtain ⟨R', hpR, hfa⟩ := exists_row_pairing containerFields
    ((queryContainers spec).map desiredContainerFields) view.containers hfields
  rw [List.forall₂_map_left_iff] at hfa
  have hfa₂ : List.Forall₂ (fun d b => 0 ≤ score d b) (queryContainers spec) R' :=
    hfa.imp (fun d b hdb => score_nonneg_of_fields hdb)
  have hlen : view.containers.length = (queryContainers spec).length := by
    have h := hfields.length_eq
    simpa using h
  obtain ⟨c, hc, hclen⟩ := matchings_perfect score (queryContainers spec)
    view.containers R' hpR hfa₂
  have hmax := scoredMatch_maximal score (queryContainers spec) view.containers c hc
  have hpart := scoredMatch_spec score (queryContainers spec) view.containers
  have hL := hpart.1.length_eq
  have hR := hpart.2.1.length_eq
  simp only [List.length_append, List.length_map] at hL hR
  constructor
  · refine List.length_eq_zero.mp ?_
    omega
  · refine List.length_eq_zero.mp ?_
    omega

theorem updateContainers_trace (view : Database) (spec : Stitch) :
    (updateContainers view spec).2
      = (scoredMatch score (queryContainers spec) view.containers).2.2.map
          (fun _ => ⟨EntityKind.container, OpKind.remove⟩)
        ++ (scoredMatch score (queryContainers spec) view.containers).2.1.map
          (fun _ => ⟨EntityKind.container, OpKind.insert⟩)
        ++ ((scoredMatch score (queryContainers spec) view.containers).1
            ++ allocRows blankContainerRow view.nextID
              (scoredMatch score (queryContainers spec) view.containers).2.1).map
          (fun _ => ⟨EntityKind.container, OpKind.commit⟩) := rfl

theorem updateContainers_frame (view : Database) (spec : Stitch) :
    (updateContainers view spec).1.connections = view.connections
      ∧ (updateContainers view spec).1.placements = view.placements :=
  ⟨rfl, rfl⟩

theorem updateContainers_stable (view : Database) (spec : Stitch)
    (hnd : (view.containers.map (fun r => r.ID)).Nodup)
    (hlt : ∀ r ∈ view.containers, r.ID < view.nextID)
    (hfields : (view.containers.map containerFields).Perm
      ((queryContainers spec).map desiredContainerFields)) :
    ((updateContainers view spec).2.countP
        (fun op => op.kind == OpKind.insert) = 0)
    ∧ ((updateContainers view spec).2.countP
        (fun op => op.kind == OpKind.remove) = 0)
    ∧ ((updateContainers view spec).1.containers.map containerFields).Perm
        (view.containers.map containerFields) := by
  have hs := scoredMatch_stable view spec hfields
  refine ⟨?_, ?_, ?_⟩
  · rw [updateContainers_trace, hs.1, hs.2]
    rw [List.map_nil, List.map_nil, List.nil_append, List.nil_append,
      countP_map_const]
    rw [if_neg (by simp)]
  · rw [updateContainers_trace, hs.1, hs.2]
    rw [List.map_nil, List.map_nil, List.nil_append, List.nil_append,
      countP_map_const]
    rw [if_neg (by simp)]
  · exact (updateContainers_perm view spec hnd hlt).trans hfields.symm

theorem updateContainers_wf (view : Database) (spec : Stitch)
    (hwf : wellFormed view) : wellFormed (updateContainers view spec).1 := by
  obtain ⟨h₁, h₂, h₃, h₄, h₅, h₆⟩ := hwf
  set res := scoredMatch score (queryContainers spec) view.containers with hres
  have e1 : (updateContainers view spec).1.containers
      = (res.1 ++ allocRows blankContainerRow view.nextID res.2.1).foldl
          (fun t pr => commitById (fun r => r.ID) t (mkContainerRow pr.2.ID pr.1))
          (eraseEach view.containers res.2.2
            ++ (allocRows blankContainerRow view.nextID res.2.1).map Prod.snd) := rfl
  have e2 : (updateContainers view spec).1.nextID
      = view.nextID + res.2.1.length := rfl
  have e3 : (updateContainers view spec).1.connections = view.connections := rfl
  have e4 : (updateContainers view spec).1.placements = view.placements := rfl
  have hids : ((updateContainers view spec).1.containers.map (fun r => r.ID))
      = (eraseEach view.containers res.2.2).map (fun r => r.ID)
        ++ List.range' view.nextID res.2.1.length := by
    rw [e1, commitFold_map_gid (fun r : ContainerRow => r.ID)
        (fun pr => mkContainerRow pr.2.ID pr.1) (fun pr => rfl),
      List.map_append,
      allocRows_snd_ids blankContainerRow _ (fun j => rfl) view.nextID res.2.1]
  have hsub := eraseEach_sublist res.2.2 view.containers
  refine ⟨?_, ?_, ?_, ?_, ?_, ?_⟩
  · rw [e3]
    exact h₁
  · rw [e3, e2]
    intro r hr
    have := h₂ r hr
    omega
  · rw [e4]
    exact h₃
  · rw [e4, e2]
    intro r hr
    have := h₄ r hr
    omega
  · rw [hids, List.nodup_append]
    refine ⟨(hsub.map _).nodup h₅, List.nodup_range' _ _, ?_⟩
    intro a ha hb
    rw [List.mem_map] at ha
    rcases ha with ⟨x, hx, rfl⟩
    have h := h₆ x (hsub.subset hx)
    have := List.mem_range'.mp hb
    omega
  · intro r hr
    rw [e2]
    have hmem : r.ID ∈ ((updateContainers view spec).1.containers.map
        (fun r => r.ID)) := List.mem_map_of_mem _ hr
    rw [hids, List.mem_append] at hmem
    rcases hmem with h | h
    · rw [List.mem_map] at h
      rcases h with ⟨x, hx, hEq⟩
      have := h₆ x (hsub.subset hx)
      omega
    · have := List.mem_range'.mp h
      omega


/-! ## Idempotence of updatePolicy -/

/-- C2 counterexample: with two interchangeable desired containers the
optimal matching is not unique, and the matching chosen on the second run
(against the re-sorted labels committed by the first run) pairs the rows
the other way around, so a row keeps its handle ID but swaps its label
set with the other row: a row's field values after the second invocation
differ from its field values after the first. -/
theorem claim2_counterexample :
    wellFormed viewC2
    ∧ (fun _ : String => some specC2) "" = some specC2
    ∧ (passTwo.1.containers.any (fun r₂ =>
        passOne.1.containers.any (fun r₁ =>
          r₁.ID == r₂.ID && !(containerFields r₁ == containerFields r₂)))) = true := by
  refine ⟨by decide, rfl, by decide⟩

/-- C2 amended: a second invocation of updatePolicy with the same compiler,
specification text and role issues zero inserts and zero removes, leaves
the connection and placement tables exactly unchanged, and preserves the
multiset of container field values; the per-row field values of the
container table may still change when the optimal container matching is
not unique. -/
theorem claim2_idempotence_amended (compile : String → Option Stitch)
    (text : String) (spec : Stitch) (role : Role) (view : Database)
    (hc : compile text = some spec) (hwf : wellFormed view) :
    ((updatePolicy compile (updatePolicy compile view role text).1 role text).2.countP
        (fun op => op.kind == OpKind.insert) = 0)
    ∧ ((updatePolicy compile (updatePolicy compile view role text).1 role text).2.countP
        (fun op => op.kind == OpKind.remove) = 0)
    ∧ (updatePolicy compile (updatePolicy compile view role text).1 role text).1.connections
        = (updatePolicy compile view role text).1.connections
    ∧ (updatePolicy compile (updatePolicy compile view role text).1 role text).1.placements
        = (updatePolicy compile view role text).1.placements
    ∧ ((updatePolicy compile (updatePolicy compile view role text).1
          role text).1.containers.map containerFields).Perm
        ((updatePolicy compile view role text).1.containers.map containerFields) := by
  cases role with
  | Worker =>
    have e : ∀ v : Database, updatePolicy compile v Role.Worker text
        = updateConnections v spec := by
      intro v
      simp only [updatePolicy, hc]
    simp only [e]
    have hwf₁ := updateConnections_wf view spec hwf
    have hcounts := updateConnections_post_counts view spec hwf.1 hwf.2.1
    have hnoop := updateConnections_noop (updateConnections view spec).1 spec
      hwf₁.1 hcounts
    have hz : ∀ q : OpKind, q ≠ OpKind.commit →
        (updateConnections (updateConnections view spec).1 spec).2.countP
          (fun op => op.kind == q) = 0 := by
      intro q hq
      refine List.countP_eq_zero.mpr ?_
      intro op hop
      simp only [hnoop.2 op hop, beq_iff_eq]
      exact fun h => hq h.symm
    refine ⟨hz _ (by decide), hz _ (by decide), ?_, ?_, ?_⟩
    · rw [hnoop.1]
    · rw [hnoop.1]
    · rw [hnoop.1]
  | Master =>
    have e : ∀ v : Database, updatePolicy compile v Role.Master text
        = ((updateContainers
              (updatePlacements (updateConnections v spec).1 spec).1 spec).1,
           (updateConnections v spec).2
             ++ (updatePlacements (updateConnections v spec).1 spec).2
             ++ (updateContainers
                  (updatePlacements (updateConnections v spec).1 spec).1 spec).2) := by
      intro v
      simp only [updatePolicy, hc]
    have hpdef : ∀ v : Database, updatePlacements v spec
        = updatePlacementsWith (toDBPlacements spec.placements) v :=
      fun _ => rfl
    simp only [e, hpdef]
    set d := toDBPlacements spec.placements with hd
    set c₁ := updateConnections view spec with hc₁e
    set p₁ := updatePlacementsWith d c₁.1 with hp₁e
    set t₁ := updateContainers p₁.1 spec with ht₁e
    have hwf₁ : wellFormed c₁.1 := updateConnections_wf view spec hwf
    have hwf₂ : wellFormed p₁.1 := updatePlacementsWith_wf d c₁.1 hwf₁
    have hwf₃ : wellFormed t₁.1 := updateContainers_wf p₁.1 spec hwf₂
    have hcountsC : ∀ k : Connection,
        spec.connections.countP (fun a => decide (a = k))
          = t₁.1.connections.countP (fun b => decide (connFields b = k)) :=
      fun k => updateConnections_post_counts view spec hwf.1 hwf.2.1 k
    have hnoopC := updateConnections_noop t₁.1 spec hwf₃.1 hcountsC
    have hfd := updatePlacementsWith_fields_desired d c₁.1 hwf₁.2.2.2.1
    have hcountsP : ∀ k : Placement,
        (d ++ makeConnectionPlacements t₁.1.connections).countP
            (fun a => decide (a = k))
          = t₁.1.placements.countP (fun b => decide (placementFields b = k)) :=
      fun k => counts_of_fields_perm hfd k
    have hnoopP := updatePlacementsWith_noop d t₁.1 hcountsP
    have hfieldsT : (t₁.1.containers.map containerFields).Perm
        ((queryContainers spec).map desiredContainerFields) :=
      updateContainers_perm p₁.1 spec hwf₂.2.2.2.2.1 hwf₂.2.2.2.2.2
    have hstable := updateContainers_stable t₁.1 spec
      hwf₃.2.2.2.2.1 hwf₃.2.2.2.2.2 hfieldsT
    have hzC : ∀ q : OpKind, q ≠ OpKind.commit →
        (updateConnections t₁.1 spec).2.countP (fun op => op.kind == q) = 0 := by
      intro q hq
      refine List.countP_eq_zero.mpr ?_
      intro op hop
      simp only [hnoopC.2 op hop, beq_iff_eq]
      exact fun h => hq h.symm
    simp only [hnoopC.1, hnoopP]
    refine ⟨?_, ?_, ?_, ?_, ?_⟩
    · rw [List.countP_append, List.countP_append,
        hzC _ (by decide), hstable.1, List.countP_nil]
    · rw [List.countP_append, List.countP_append,
        hzC _ (by decide), hstable.2.1, List.countP_nil]
    · exact (updateContainers_frame t₁.1 spec).1
    · exact (updateContainers_frame t₁.1 spec).2
    · exact hstable.2.2

/-- Witness for C2 amended on the empty specification and the empty
view with role Master. -/
theorem claim2_witness :
    compileW "" = some specW
    ∧ wellFormed viewW
    ∧ (passTwoW.2.countP (fun op => op.kind == OpKind.insert) = 0
        ∧ passTwoW.2.countP (fun op => op.kind == OpKind.remove) = 0
        ∧ passTwoW.1.connections = passOneW.1.connections
        ∧ passTwoW.1.placements = passOneW.1.placements
        ∧ (passTwoW.1.containers.map containerFields).Perm
            (passOneW.1.containers.map containerFields)) :=
  ⟨rfl, by decide,
   claim2_idempotence_amended compileW "" specW Role.Master viewW rfl (by decide)⟩
end Quilt
